import Mathlib

/-!
# A shallow embedding of the `extract_fx` f/x string-literal extractor

This file embeds the tokenizing rewriter of `extract_fx.cpp` (class
`FxExtractor`) in Lean and proves properties of the embedding.

Modelling conventions:
* The input stream together with `getline` is modelled by the fields
  `cur` (the current line, with its terminating newline re-appended as in
  `getNextLine`), `rest` (the not yet read part of the input) and `eof`
  (the stream's eof bit).  `m_ptr` is the head of `cur`; `m_ptr -
  m_inLine.c_str()` is `linePos`.
* Reading past the end of the line buffer yields the terminating NUL, so
  `peek` returns the NUL character when `cur` is exhausted.
* Exceptions (`EarlyEnd`, `ParsingError`) become an `Except Err` result.
  Two genuine C++ failure modes get their own errors: `badLength` models
  the `std::length_error` thrown by `std::string(count, ' ')` for a
  negative count, and `oobRead` models the undefined out-of-bounds read
  `expression[pos - 1]` performed with `pos == 0` in
  `processExtractionField`.
* Each C++ member function becomes a field of the record `Interp`; the
  record at fuel `n + 1` calls the record at fuel `n`, so every loop and
  every (mutually) recursive call consumes one unit of fuel and the whole
  interpreter is structurally recursive in the fuel.  Exhausted fuel is
  the distinguished error `outOfFuel`.
* `sawFx` is a ghost flag mirroring the `fx` classification made in
  `processStringLiteral` (source lines 204-208): it is set exactly when a
  literal with an `f`/`F`/`x`/`X` prefix is recognized, and never reset.
-/

namespace ExtractFx

/-- Descriptor of an expression field: line and column of its start and the
verbatim expression text (struct `Field` in the source). -/
structure Field where
  line : Nat
  col : Nat
  expression : List Char
deriving DecidableEq, Repr

/-- Failure modes of a run. -/
inductive Err where
  | outOfFuel
  | earlyEnd (msg : String)
  | parsingError (line : Nat) (msg : String)
  | badLength
  | oobRead
deriving DecidableEq, Repr

/-- The mutable state of `FxExtractor`. -/
structure St where
  cur : List Char
  rest : List Char
  eof : Bool
  lineNo : Nat
  linePos : Nat
  outLines : List Char
  out : List Char
  lineDirectives : Bool
  sawFx : Bool
deriving DecidableEq, Repr

/-- The immutable configuration: `m_sourceFile` and `m_functionName`. -/
structure Config where
  sourceFile : List Char
  functionName : List Char

instance (α β : Type) [DecidableEq α] [DecidableEq β] :
    DecidableEq (Except α β) := fun a b =>
  match a, b with
  | .ok x, .ok y => decidable_of_iff (x = y) (by simp)
  | .error x, .error y => decidable_of_iff (x = y) (by simp)
  | .ok _, .error _ => isFalse (by simp)
  | .error _, .ok _ => isFalse (by simp)

/-- One `getline` step: split off the first line of `xs`.  Returns the line
with its newline re-appended (as `getNextLine` does), the remaining input,
and whether the stream hit eof during the read (no newline found). -/
def splitLine : List Char → List Char × List Char × Bool
  | [] => ([], [], true)
  | c :: cs =>
    if c = '\n' then ([c], cs, false)
    else
      let r := splitLine cs
      (c :: r.1, r.2.1, r.2.2)

/-- `getNextLine`: read the next line, bump the line number, reset the
column.  A failed `getline` (eof) leaves an empty line buffer. -/
def getNextLine (st : St) : St :=
  let r := splitLine st.rest
  { st with cur := r.1, rest := r.2.1, eof := st.eof || r.2.2,
            lineNo := st.lineNo + 1, linePos := 0 }

/-- `peek()`: the current character, NUL at end of the line buffer. -/
def peekC (st : St) : Char := st.cur.headD '\x00'

/-- `peek(offset)`: look ahead within the current line buffer. -/
def peekK (st : St) (k : Nat) : Char := st.cur.getD k '\x00'

/-- `next()`: consume one character; at end of line (or at the NUL of the
last line) load the next line and return a newline. -/
def next (st : St) : Char × St :=
  match st.cur with
  | [] => ('\n', getNextLine st)
  | c :: cs =>
    if c = '\n' then ('\n', getNextLine st)
    else (c, { st with cur := cs, linePos := st.linePos + 1 })

/-- `xfer()`: move one character from the input to `m_outLines`. -/
def xfer (st : St) : St :=
  let n := next st
  { n.2 with outLines := n.2.outLines ++ [n.1] }

/-- Advance `m_ptr` by `n` characters within the current line
(`m_ptr += prefix.size()`). -/
def skipChars (st : St) (n : Nat) : St :=
  { st with cur := st.cur.drop n, linePos := st.linePos + n }

/-- `std::isspace` in the C locale. -/
def isspaceC (c : Char) : Bool :=
  c = ' ' || c = '\t' || c = '\n' || c = '\x0b' || c = '\x0c' || c = '\r'

/-- `std::isalpha` in the C locale. -/
def isalphaC (c : Char) : Bool :=
  ('a' ≤ c && c ≤ 'z') || ('A' ≤ c && c ≤ 'Z')

/-- `std::tolower` in the C locale. -/
def tolowerC (c : Char) : Char :=
  if 'A' ≤ c && c ≤ 'Z' then Char.ofNat (c.toNat + 32) else c

/-- `makeLineDirective`: `"\n#line {line} \"{file}\"\n"` followed by `col`
spaces; empty when line directives are off.  `std::string(col, ' ')` with a
negative count throws `std::length_error`, modelled as `badLength`. -/
def makeLineDirective (cfg : Config) (ld : Bool) (line : Nat) (col : Int) :
    Except Err (List Char) :=
  if ld = false then .ok []
  else if col < 0 then .error .badLength
  else .ok ('\n' :: (("#line ").toList ++ Nat.toDigits 10 line ++
    (" \"").toList ++ cfg.sourceFile ++ ("\"\n").toList ++
    List.replicate col.toNat ' '))

/-- The emission loop over the collected fields (source lines 339-342):
each field contributes its line directive, `", "` and its expression. -/
def emitFields (cfg : Config) (ld : Bool) : List Field → Except Err (List Char)
  | [] => .ok []
  | f :: fs => do
    let d ← makeLineDirective cfg ld f.line ((f.col : Int) - 2)
    let r ← emitFields cfg ld fs
    .ok (d ++ ',' :: ' ' :: f.expression ++ r)

/-- Does the raw literal end here?  `peek()` is `)`; the following
characters must be the delimiter `pfx` followed by the terminator
(source lines 272-280). -/
def rawEndsHere (st : St) (pfx : List Char) (terminator : Char) : Prop :=
  (∀ i < pfx.length, peekK st (i + 1) = pfx.getD i ' ') ∧
    peekK st (pfx.length + 1) = terminator

instance (st : St) (pfx : List Char) (terminator : Char) :
    Decidable (rawEndsHere st pfx terminator) := by
  unfold rawEndsHere; infer_instance

/-- Position after stripping trailing whitespace (the `while (pos > 0 &&
isspace(...)) pos--;` loop of `processExtractionField`). -/
def stripPosAux (e : List Char) : Nat → Nat
  | 0 => 0
  | n + 1 => if isspaceC (e.getD n ' ') = true then stripPosAux e n else n + 1

def stripPos (e : List Char) : Nat := stripPosAux e e.length

/-- The record of the member functions of `FxExtractor` at a given fuel. -/
structure Interp where
  cppLoop : Bool → St → Except Err St
  processCPPComment : St → Except Err St
  cLoop : St → Except Err St
  processCComment : St → Except Err St
  prefixLoop : List Char → St → Except Err (List Char × St)
  litLoop : Bool → Char → List Char → Char → List Char → List Field → Bool →
    St → Except Err ((List Char × List Field) × St)
  processLiteral : Bool → Char → List Char → Char → St → Except Err St
  processStringLiteral : St → Except Err St
  processCharLiteral : St → Except Err St
  processExtractionField : List Char → List Field → St →
    Except Err ((List Char × List Field) × St)
  specLoop : List Char → List Field → St →
    Except Err ((List Char × List Field) × St)
  processExpressionField : St → Except Err (Field × St)
  processExpression : St → Except Err St
  processNested : St → Except Err St
  processNestedParenthesis : St → Except Err St
  npLoop : Char → Char → St → Except Err St
  mainLoopInner : Bool → Bool → St → Except Err (Bool × Bool × St)
  mainLoop : Bool → St → Except Err St

/-- Body of the `while` loop of `processCPPComment` (source lines 157-170). -/
def cppLoopB (p : Interp) (backslash : Bool) (st : St) : Except Err St :=
  if peekC st = '\n' ∧ backslash = false then .ok st
  else if peekC st = '\x00' then
    if backslash = true then
      .error (.earlyEnd "Input ends with a // comment line ending in \\.")
    else .ok st
  else
    let b := if peekC st = '\\' then true
             else if peekC st = '\n' ∨ isspaceC (peekC st) = false then false
             else backslash
    p.cppLoop b (xfer st)

/-- `processCPPComment` (source lines 151-171). -/
def processCPPCommentB (p : Interp) (st : St) : Except Err St :=
  p.cppLoop false (xfer (xfer st))

/-- Body of the `while` loop of `processCComment` (source lines 178-186). -/
def cLoopB (p : Interp) (st : St) : Except Err St :=
  if peekC st = '*' ∧ peekK st 1 = '/' then .ok (xfer (xfer st))
  else if peekC st = '\x00' then
    .error (.earlyEnd "/* unmatched to the end of the input.")
  else p.cLoop (xfer st)

/-- `processCComment` (source lines 173-187). -/
def processCCommentB (p : Interp) (st : St) : Except Err St :=
  p.cLoop (xfer (xfer st))

/-- The raw-literal delimiter collection loop (source lines 252-257).
`pfx` models the local variable `prefix`. -/
def prefixLoopB (p : Interp) (pfx : List Char) (st : St) :
    Except Err (List Char × St) :=
  if peekC st = '(' then .ok (pfx, st)
  else if peekC st = '\x00' ∨ peekC st = '\n' then
    .error (.parsingError st.lineNo
      " ends in a raw literal prefix. There must be a ( before the end of line after R\".")
  else
    let n := next st
    p.prefixLoop (pfx ++ [n.1]) n.2

/-- The bottom of one `while (true)` iteration of `processLiteral`'s body
loop: `toLit()` of a regular character, then the next iteration
(source line 321). -/
def litLoopBottom (p : Interp) (raw : Bool) (fx : Char) (pfx : List Char)
    (terminator : Char) (lit : List Char) (fields : List Field)
    (backslash : Bool) (st : St) :
    Except Err ((List Char × List Field) × St) :=
  let n := next st
  p.litLoop raw fx pfx terminator (lit ++ [n.1]) fields backslash n.2

/-- The f/x brace handling inside `processLiteral`'s body loop
(source lines 306-319). -/
def litLoopStage2 (p : Interp) (raw : Bool) (fx : Char) (pfx : List Char)
    (terminator : Char) (lit : List Char) (fields : List Field)
    (backslash : Bool) (st : St) :
    Except Err ((List Char × List Field) × St) :=
  if fx ≠ '\x00' ∧ peekC st = '\x7b' then
    let n := next st
    if peekC n.2 ≠ '\x7b' then
      match p.processExtractionField lit fields n.2 with
      | .error e => .error e
      | .ok (r, st1) =>
        litLoopBottom p raw fx pfx terminator r.1 r.2 backslash st1
    else
      litLoopBottom p raw fx pfx terminator (lit ++ ['\x7b']) fields backslash n.2
  else if fx ≠ '\x00' ∧ peekC st = '\x7d' then
    let n := next st
    if peekC n.2 ≠ '\x7d' then
      .error (.parsingError n.2.lineNo
        "Right brace characters must be doubled in f/x string literals.")
    else
      litLoopBottom p raw fx pfx terminator (lit ++ [n.1]) fields backslash n.2
  else litLoopBottom p raw fx pfx terminator lit fields backslash st

/-- The body loop of `processLiteral` (source lines 267-322).  `lit` and
`fields` model the local accumulators; the result is their final value at
the `break`, with the state still at the closing terminator. -/
def litLoopB (p : Interp) (raw : Bool) (fx : Char) (pfx : List Char)
    (terminator : Char) (lit : List Char) (fields : List Field)
    (backslash : Bool) (st : St) :
    Except Err ((List Char × List Field) × St) :=
  if raw = true then
    if peekC st = '\x00' then .error (.earlyEnd "Input ends in raw literal.")
    else if peekC st = ')' ∧ rawEndsHere st pfx terminator then
      let n := next st
      .ok ((lit ++ [n.1] ++ pfx, fields), skipChars n.2 pfx.length)
    else litLoopStage2 p raw fx pfx terminator lit fields backslash st
  else
    if peekC st = '\\' then
      litLoopStage2 p raw fx pfx terminator lit fields (!backslash) st
    else if peekC st = terminator then
      if backslash = true then
        litLoopStage2 p raw fx pfx terminator lit fields false st
      else .ok ((lit, fields), st)
    else if peekC st = '\x00' then
      .error (.earlyEnd "Input ends inside a char or string literal.")
    else if backslash = false ∧ peekC st = '\n' then
      .error (.parsingError st.lineNo "Input line ends inside a char or string literal.")
    else if peekC st = '\n' ∨ isspaceC (peekC st) = false then
      litLoopStage2 p raw fx pfx terminator lit fields false st
    else litLoopStage2 p raw fx pfx terminator lit fields backslash st

/-- The emission phase of `processLiteral` after the body loop
(source lines 324-349), starting with the `toLit()` of the terminator. -/
def processLiteralAfter (cfg : Config) (fx : Char)
    (encoding : List Char) (lit0 : List Char) (fields : List Field) (st : St) :
    Except Err St :=
  let n := next st
  let lit := lit0 ++ [n.1]
  let st := n.2
  if fx ≠ '\x00' then
    let head : List Char :=
      if fx = 'f' then
        (if cfg.functionName.getLast? = some '*' then
          cfg.functionName.dropLast ++ '<' :: Nat.toDigits 10 fields.length ++ ['>']
        else cfg.functionName) ++ ['('] ++ encoding
      else []
    match emitFields cfg st.lineDirectives fields with
    | .error e => .error e
    | .ok tl =>
      let close : List Char := if fx = 'f' then [')'] else []
      .ok { st with outLines := st.outLines ++ head ++ lit ++ tl ++ close }
  else .ok { st with outLines := st.outLines ++ lit }

/-- `processLiteral` (source lines 235-349). -/
def processLiteralB (cfg : Config) (p : Interp) (raw : Bool) (fx : Char)
    (encoding : List Char) (terminator : Char) (st : St) : Except Err St :=
  if raw = true then
    let n0 := next st
    match p.prefixLoop [] n0.2 with
    | .error e => .error e
    | .ok (pfx, st1) =>
      let n1 := next st1
      match p.litLoop raw fx pfx terminator
          ('R' :: n0.1 :: (pfx ++ [n1.1])) [] false n1.2 with
      | .error e => .error e
      | .ok (r, st2) => processLiteralAfter cfg fx encoding r.1 r.2 st2
  else
    let n0 := next st
    match p.litLoop raw fx pfx0 terminator [n0.1] [] false n0.2 with
    | .error e => .error e
    | .ok (r, st2) => processLiteralAfter cfg fx encoding r.1 r.2 st2
where
  pfx0 : List Char := []

/-- `processStringLiteral` (source lines 193-232): reclaim the
`R`/`f`/`x`/encoding prefix from the tail of `m_outLines`.  The ghost flag
`sawFx` records whether an f/x literal was recognized. -/
def processStringLiteralB (p : Interp) (st : St) : Except Err St :=
  let o := st.outLines
  let n0 := o.length
  let d :=
    if 0 < n0 ∧ o.getD (n0 - 1) ' ' = 'R' then (true, n0 - 1) else (false, n0)
  let raw := d.1
  let pos1 := d.2
  let dfx :=
    if 0 < pos1 then
      let c := tolowerC (o.getD (pos1 - 1) ' ')
      if c = 'f' ∨ c = 'x' then (c, pos1 - 1) else ('\x00', pos1)
    else ('\x00', pos1)
  let fx := dfx.1
  let pos2 := dfx.2
  let denc :=
    if fx = 'f' ∧ 0 < pos2 then
      let c := o.getD (pos2 - 1) ' '
      if c = 'L' ∨ c = 'U' ∨ c = 'u' then ([c], pos2 - 1)
      else if c = '8' ∧ 1 < pos2 ∧ o.getD (pos2 - 2) ' ' = 'u' then
        (['u', '8'], pos2 - 2)
      else ([], pos2)
    else ([], pos2)
  let st1 := { st with outLines := o.take denc.2,
                       sawFx := if fx = '\x00' then st.sawFx else true }
  p.processLiteral raw fx denc.1 '"' st1

/-- `processCharLiteral` (source line 190). -/
def processCharLiteralB (p : Interp) (st : St) : Except Err St :=
  p.processLiteral false '\x00' [] '\'' st

/-- The tail of `processExtractionField` after the debug-`=` handling:
push the field and copy an optional `:format-spec` (source lines 364-392). -/
def pefFinish (p : Interp) (lit : List Char) (fields : List Field) (st : St) :
    Except Err ((List Char × List Field) × St) :=
  if peekC st = ':' then
    let n := next st
    p.specLoop (lit ++ [n.1]) fields n.2
  else .ok ((lit, fields), st)

/-- `processExtractionField` (source lines 352-393).  When the expression
is empty or all whitespace, `pos` is `0` and the C++ code evaluates
`field.expression[pos - 1]`, an out-of-bounds read at index `SIZE_MAX`
(undefined behaviour), modelled as the error `oobRead`. -/
def processExtractionFieldB (p : Interp) (lit : List Char)
    (fields : List Field) (st : St) :
    Except Err ((List Char × List Field) × St) :=
  match p.processExpressionField st with
  | .error e => .error e
  | .ok (f, st1) =>
    let pos := stripPos f.expression
    if pos = 0 then .error .oobRead
    else if f.expression.getD (pos - 1) ' ' = '=' then
      pefFinish p (lit ++ f.expression ++ ['\x7b'])
        (fields ++ [{ f with expression := f.expression.take (pos - 1) }]) st1
    else
      pefFinish p (lit ++ ['\x7b']) (fields ++ [f]) st1

/-- The format-spec copying loop of `processExtractionField`
(source lines 374-391).  Note: at end of input the C++ code constructs
`EarlyEnd("Input ends inside format-spec")` but does not `throw` it
(source line 376), so the check has no effect; this is modelled
faithfully (the loop keeps running). -/
def specLoopB (p : Interp) (lit : List Char) (fields : List Field) (st : St) :
    Except Err ((List Char × List Field) × St) :=
  if peekC st = '\x7d' then .ok ((lit, fields), st)
  else if peekC st = '\x7b' then
    let n := next st
    match p.processExpressionField n.2 with
    | .error e => .error e
    | .ok (f, st1) =>
      if peekC st1 ≠ '\x7d' then
        .error (.parsingError st1.lineNo
          "Found nested expression-field ending in :. This is not allowed.")
      else
        let n2 := next st1
        p.specLoop (lit ++ [n.1] ++ [n2.1]) (fields ++ [f]) n2.2
  else
    let n := next st
    p.specLoop (lit ++ [n.1]) fields n.2

/-- `processExpressionField` (source lines 399-413): swap `m_outLines` out,
collect the expression there, swap back. -/
def processExpressionFieldB (p : Interp) (st : St) : Except Err (Field × St) :=
  match p.processExpression { st with outLines := [] } with
  | .error e => .error e
  | .ok st1 =>
    .ok ({ line := st.lineNo, col := st.linePos, expression := st1.outLines },
         { st1 with outLines := st.outLines })

/-- `processExpression` (source lines 415-457). -/
def processExpressionB (p : Interp) (st : St) : Except Err St :=
  match p.processNested st with
  | .error e => .error e
  | .ok st =>
    if peekC st = ')' then
      .error (.parsingError st.lineNo "Extraneous ) in expression-field")
    else if peekC st = ']' then
      .error (.parsingError st.lineNo "Extraneous ] in expression-field")
    else if peekC st = '?' then
      match p.processExpression (xfer st) with
      | .error e => .error e
      | .ok st1 =>
        if peekC st1 ≠ ':' then
          .error (.parsingError st1.lineNo "Mismatched ? in expression-field")
        else p.processExpression (xfer st1)
    else if peekC st = '\x7d' then .ok st
    else if peekC st = ':' then
      if peekK st 1 ≠ ':' then .ok st
      else if isalphaC (peekK st 2) = false then .ok st
      else p.processExpression (xfer (xfer st))
    else p.processExpression (xfer st)

/-- `processNested` (source lines 462-499).  A bare `/` that starts no
comment re-enters the loop without consuming anything: the C++ loop spins
forever there; in the embedding it exhausts the fuel. -/
def processNestedB (p : Interp) (st : St) : Except Err St :=
  if peekC st = '\x00' then
    .error (.earlyEnd "Input ends inside an expression-field in a literal.")
  else if peekC st = '(' ∨ peekC st = '[' ∨ peekC st = '\x7b' then
    match p.processNestedParenthesis st with
    | .error e => .error e
    | .ok st1 => p.processNested st1
  else if peekC st = '"' then
    match p.processStringLiteral st with
    | .error e => .error e
    | .ok st1 => p.processNested st1
  else if peekC st = '\'' then
    match p.processCharLiteral st with
    | .error e => .error e
    | .ok st1 => p.processNested st1
  else if peekC st = '/' then
    if peekK st 1 = '*' then
      match p.processCComment st with
      | .error e => .error e
      | .ok st1 => p.processNested st1
    else if peekK st 1 = '/' then
      match p.processCPPComment st with
      | .error e => .error e
      | .ok st1 =>
        if peekC st1 = '\x00' then
          .error (.earlyEnd "Input ends with a // comment inside a expression-field")
        else p.processNested st1
    else p.processNested st
  else .ok st

/-- The loop of `processNestedParenthesis` (source lines 509-517). -/
def npLoopB (p : Interp) (opener closer : Char) (st : St) : Except Err St :=
  match p.processNested st with
  | .error e => .error e
  | .ok st =>
    let c := peekC st
    let st1 := xfer st
    if c = closer then .ok st1
    else if c = ')' ∨ c = ']' ∨ c = '\x7d' then
      .error (.parsingError st1.lineNo ("Mismatched " ++ opener.toString ++
        ". A " ++ c.toString ++ " was found where a " ++ closer.toString ++
        " was expected."))
    else p.npLoop opener closer st1

/-- `processNestedParenthesis` (source lines 501-518). -/
def processNestedParenthesisB (p : Interp) (st : St) : Except Err St :=
  let opener := peekC st
  let closer := if opener = '(' then ')' else if opener = '[' then ']' else '\x7d'
  p.npLoop opener closer (xfer st)

/-- The per-character loop inside `tryProcess` (source lines 53-94).
Returns the final `continuation` and `first` flags. -/
def mainLoopInnerB (p : Interp) (continuation first : Bool) (st : St) :
    Except Err (Bool × Bool × St) :=
  if peekC st = '\n' ∨ peekC st = '\x00' then .ok (continuation, first, st)
  else if peekC st = '"' then
    match p.processStringLiteral st with
    | .error e => .error e
    | .ok st1 => p.mainLoopInner continuation first st1
  else if peekC st = '\'' then
    match p.processCharLiteral st with
    | .error e => .error e
    | .ok st1 => p.mainLoopInner continuation first st1
  else if peekC st = '/' ∧ peekK st 1 = '*' then
    match p.processCComment st with
    | .error e => .error e
    | .ok st1 => p.mainLoopInner continuation first st1
  else if peekC st = '/' ∧ peekK st 1 = '/' then
    match p.processCPPComment st with
    | .error e => .error e
    | .ok st1 => p.mainLoopInner continuation first st1
  else if peekC st = '/' ∨ peekC st = '\\' then
    -- a '/' that starts no comment falls through to the backslash case
    p.mainLoopInner true first (xfer st)
  else if peekC st = '#' then
    let st1 := if first = true then { st with lineDirectives := false } else st
    p.mainLoopInner continuation first (xfer st1)
  else if isspaceC (peekC st) = false then
    p.mainLoopInner false false (xfer st)
  else
    p.mainLoopInner continuation first (xfer st)

/-- The per-line loop of `tryProcess` (source lines 49-103). -/
def mainLoopB (p : Interp) (saved : Bool) (st : St) : Except Err St :=
  if peekC st = '\x00' then .ok st
  else
    match p.mainLoopInner false true st with
    | .error e => .error e
    | .ok r =>
      let continuation := r.1
      let st1 := r.2.2
      let st2 := { st1 with out := st1.out ++ st1.outLines }
      let st3 :=
        if st2.eof = false then
          let n := next st2
          { n.2 with out := n.2.out ++ [n.1] }
        else st2
      let st4 := { st3 with outLines := [] }
      let st5 := if continuation = false then { st4 with lineDirectives := saved }
                 else st4
      p.mainLoop saved st5

/-- All member functions at fuel zero: every call is out of fuel. -/
def interpBase : Interp where
  cppLoop := fun _ _ => .error .outOfFuel
  processCPPComment := fun _ => .error .outOfFuel
  cLoop := fun _ => .error .outOfFuel
  processCComment := fun _ => .error .outOfFuel
  prefixLoop := fun _ _ => .error .outOfFuel
  litLoop := fun _ _ _ _ _ _ _ _ => .error .outOfFuel
  processLiteral := fun _ _ _ _ _ => .error .outOfFuel
  processStringLiteral := fun _ => .error .outOfFuel
  processCharLiteral := fun _ => .error .outOfFuel
  processExtractionField := fun _ _ _ => .error .outOfFuel
  specLoop := fun _ _ _ => .error .outOfFuel
  processExpressionField := fun _ => .error .outOfFuel
  processExpression := fun _ => .error .outOfFuel
  processNested := fun _ => .error .outOfFuel
  processNestedParenthesis := fun _ => .error .outOfFuel
  npLoop := fun _ _ _ => .error .outOfFuel
  mainLoopInner := fun _ _ _ => .error .outOfFuel
  mainLoop := fun _ _ => .error .outOfFuel

/-- One more unit of fuel: every body calls the previous level. -/
def interpStep (cfg : Config) (p : Interp) : Interp where
  cppLoop := cppLoopB p
  processCPPComment := processCPPCommentB p
  cLoop := cLoopB p
  processCComment := processCCommentB p
  prefixLoop := prefixLoopB p
  litLoop := litLoopB p
  processLiteral := processLiteralB cfg p
  processStringLiteral := processStringLiteralB p
  processCharLiteral := processCharLiteralB p
  processExtractionField := processExtractionFieldB p
  specLoop := specLoopB p
  processExpressionField := processExpressionFieldB p
  processExpression := processExpressionB p
  processNested := processNestedB p
  processNestedParenthesis := processNestedParenthesisB p
  npLoop := npLoopB p
  mainLoopInner := mainLoopInnerB p
  mainLoop := mainLoopB p

/-- The interpreter at a given fuel. -/
def interp (cfg : Config) : Nat → Interp
  | 0 => interpBase
  | n + 1 => interpStep cfg (interp cfg n)

/-- `specLoop` at a given fuel (the format-spec copying loop). -/
def specLoop (cfg : Config) (fuel : Nat) (lit : List Char)
    (fields : List Field) (st : St) :
    Except Err ((List Char × List Field) × St) :=
  (interp cfg fuel).specLoop lit fields st

/-- `processExtractionField` at a given fuel. -/
def processExtractionField (cfg : Config) (fuel : Nat) (lit : List Char)
    (fields : List Field) (st : St) :
    Except Err ((List Char × List Field) × St) :=
  (interp cfg fuel).processExtractionField lit fields st

/-- `processExpressionField` at a given fuel. -/
def processExpressionField (cfg : Config) (fuel : Nat) (st : St) :
    Except Err (Field × St) :=
  (interp cfg fuel).processExpressionField st

/-- `processExpression` at a given fuel. -/
def processExpression (cfg : Config) (fuel : Nat) (st : St) : Except Err St :=
  (interp cfg fuel).processExpression st

/-- `litLoop` at a given fuel (the literal body loop). -/
def litLoop (cfg : Config) (fuel : Nat) (raw : Bool) (fx : Char)
    (pfx : List Char) (terminator : Char) (lit : List Char)
    (fields : List Field) (backslash : Bool) (st : St) :
    Except Err ((List Char × List Field) × St) :=
  (interp cfg fuel).litLoop raw fx pfx terminator lit fields backslash st

/-- `prefixLoop` at a given fuel (the raw-delimiter collection loop). -/
def prefixLoop (cfg : Config) (fuel : Nat) (pfx : List Char) (st : St) :
    Except Err (List Char × St) :=
  (interp cfg fuel).prefixLoop pfx st

/-- The initial state: construct the extractor and perform the first
`getNextLine` of `tryProcess`. -/
def initSt (ld : Bool) (input : List Char) : St :=
  getNextLine { cur := [], rest := input, eof := false, lineNo := 0,
                linePos := 0, outLines := [], out := [],
                lineDirectives := ld, sawFx := false }

/-- `tryProcess` (source lines 38-104): initial line directive, then the
per-line loop.  (The stream-validity check of line 41 always passes for an
in-memory input and is not modelled.) -/
def tryProcess (cfg : Config) (fuel : Nat) (ld : Bool) (input : List Char) :
    Except Err St :=
  let st := initSt ld input
  match makeLineDirective cfg st.lineDirectives 1 0 with
  | .error e => .error e
  | .ok d => (interp cfg fuel).mainLoop ld { st with out := d }

/-- `process` (source lines 25-36): `true` on success, `false` when any
exception terminates the run. -/
def process (cfg : Config) (fuel : Nat) (ld : Bool) (input : List Char) : Bool :=
  match tryProcess cfg fuel ld input with
  | .ok _ => true
  | .error _ => false

/-- The output stream of a successful run. -/
def runOut (cfg : Config) (fuel : Nat) (ld : Bool) (input : List Char) :
    Option (List Char) :=
  match tryProcess cfg fuel ld input with
  | .ok st => some st.out
  | .error _ => none

/-- The error of a failed run. -/
def runErr (cfg : Config) (fuel : Nat) (ld : Bool) (input : List Char) :
    Option Err :=
  match tryProcess cfg fuel ld input with
  | .ok _ => none
  | .error e => some e

/-- The configuration used by the embedded self-tests of the source
(`FxExtractor(out, in, "test", "std::format", ...)`). -/
def cfgT : Config where
  sourceFile := ("test").toList
  functionName := ("std::format").toList

/-- The input not yet consumed: the rest of the current line buffer plus the
unread part of the stream. -/
def rem (st : St) : List Char := st.cur ++ st.rest

/-- Well-formedness of the cursor state, maintained for NUL-free inputs:
no NUL in the buffers, a newline only as the last character of the line
buffer, the eof bit set exactly when the stream is exhausted and the line
buffer has no trailing newline. -/
def WF (st : St) : Prop :=
  '\x00' ∉ st.cur ∧ '\x00' ∉ st.rest ∧
  (∀ c ∈ st.cur.dropLast, c ≠ '\n') ∧
  (st.eof = true → st.rest = [] ∧ '\n' ∉ st.cur) ∧
  (st.eof = false → st.cur.getLast? = some '\n')

/-- Number of left braces in a string, not counting doubled `{{` and `}}`
pairs: the claim's notion of "placeholder openers" of a literal body. -/
def countUndoubled : List Char → Nat
  | [] => 0
  | '\x7b' :: '\x7b' :: rest => countUndoubled rest
  | '\x7d' :: '\x7d' :: rest => countUndoubled rest
  | '\x7b' :: rest => 1 + countUndoubled rest
  | _ :: rest => countUndoubled rest

/-- `sawFx` is monotone in every member function: once an f/x literal has
been recognized the flag stays set.  One conjunct per `Interp` field. -/
def MonoAll (cfg : Config) (fuel : Nat) : Prop :=
  (∀ b st st1, (interp cfg fuel).cppLoop b st = .ok st1 →
    st.sawFx = true → st1.sawFx = true) ∧
  (∀ st st1, (interp cfg fuel).processCPPComment st = .ok st1 →
    st.sawFx = true → st1.sawFx = true) ∧
  (∀ st st1, (interp cfg fuel).cLoop st = .ok st1 →
    st.sawFx = true → st1.sawFx = true) ∧
  (∀ st st1, (interp cfg fuel).processCComment st = .ok st1 →
    st.sawFx = true → st1.sawFx = true) ∧
  (∀ pfx st r, (interp cfg fuel).prefixLoop pfx st = .ok r →
    st.sawFx = true → r.2.sawFx = true) ∧
  (∀ raw fx pfx t lit fields b st r,
    (interp cfg fuel).litLoop raw fx pfx t lit fields b st = .ok r →
    st.sawFx = true → r.2.sawFx = true) ∧
  (∀ raw fx enc t st st1, (interp cfg fuel).processLiteral raw fx enc t st = .ok st1 →
    st.sawFx = true → st1.sawFx = true) ∧
  (∀ st st1, (interp cfg fuel).processStringLiteral st = .ok st1 →
    st.sawFx = true → st1.sawFx = true) ∧
  (∀ st st1, (interp cfg fuel).processCharLiteral st = .ok st1 →
    st.sawFx = true → st1.sawFx = true) ∧
  (∀ lit fields st r, (interp cfg fuel).processExtractionField lit fields st = .ok r →
    st.sawFx = true → r.2.sawFx = true) ∧
  (∀ lit fields st r, (interp cfg fuel).specLoop lit fields st = .ok r →
    st.sawFx = true → r.2.sawFx = true) ∧
  (∀ st r, (interp cfg fuel).processExpressionField st = .ok r →
    st.sawFx = true → r.2.sawFx = true) ∧
  (∀ st st1, (interp cfg fuel).processExpression st = .ok st1 →
    st.sawFx = true → st1.sawFx = true) ∧
  (∀ st st1, (interp cfg fuel).processNested st = .ok st1 →
    st.sawFx = true → st1.sawFx = true) ∧
  (∀ st st1, (interp cfg fuel).processNestedParenthesis st = .ok st1 →
    st.sawFx = true → st1.sawFx = true) ∧
  (∀ o c st st1, (interp cfg fuel).npLoop o c st = .ok st1 →
    st.sawFx = true → st1.sawFx = true) ∧
  (∀ b1 b2 st r, (interp cfg fuel).mainLoopInner b1 b2 st = .ok r →
    st.sawFx = true → r.2.2.sawFx = true) ∧
  (∀ s st st1, (interp cfg fuel).mainLoop s st = .ok st1 →
    st.sawFx = true → st1.sawFx = true)

/-- The verbatim-transcription invariant for runs that recognize no f/x
literal: every function moves the characters it consumes unchanged into
its accumulator, preserving well-formedness.  One conjunct per function
reachable with `fx = NUL`. -/
def VerbAll (cfg : Config) (fuel : Nat) : Prop :=
  (∀ b st st1, WF st → (interp cfg fuel).cppLoop b st = .ok st1 →
    WF st1 ∧ ∃ d, rem st = d ++ rem st1 ∧ st1.outLines = st.outLines ++ d ∧
      st1.out = st.out ∧ st1.sawFx = st.sawFx) ∧
  (∀ st st1, WF st → peekC st = '/' → peekK st 1 = '/' →
    (interp cfg fuel).processCPPComment st = .ok st1 →
    WF st1 ∧ ∃ d, rem st = d ++ rem st1 ∧ st1.outLines = st.outLines ++ d ∧
      st1.out = st.out ∧ st1.sawFx = st.sawFx) ∧
  (∀ st st1, WF st → (interp cfg fuel).cLoop st = .ok st1 →
    WF st1 ∧ ∃ d, rem st = d ++ rem st1 ∧ st1.outLines = st.outLines ++ d ∧
      st1.out = st.out ∧ st1.sawFx = st.sawFx) ∧
  (∀ st st1, WF st → peekC st = '/' → peekK st 1 = '*' →
    (interp cfg fuel).processCComment st = .ok st1 →
    WF st1 ∧ ∃ d, rem st = d ++ rem st1 ∧ st1.outLines = st.outLines ++ d ∧
      st1.out = st.out ∧ st1.sawFx = st.sawFx) ∧
  (∀ pfx st r, WF st → (interp cfg fuel).prefixLoop pfx st = .ok r →
    WF r.2 ∧ ∃ d, rem st = d ++ rem r.2 ∧ r.1 = pfx ++ d ∧
      r.2.outLines = st.outLines ∧ r.2.out = st.out ∧ r.2.sawFx = st.sawFx ∧
      '\x00' ∉ d ∧ peekC r.2 = '(') ∧
  (∀ raw pfx t lit fields b st r, WF st → '\x00' ∉ pfx → t ≠ '\x00' →
    (interp cfg fuel).litLoop raw '\x00' pfx t lit fields b st = .ok r →
    WF r.2 ∧ ∃ d, rem st = d ++ rem r.2 ∧ r.1.1 = lit ++ d ∧ r.1.2 = fields ∧
      r.2.outLines = st.outLines ∧ r.2.out = st.out ∧ r.2.sawFx = st.sawFx ∧
      peekC r.2 = t) ∧
  (∀ raw enc t st st1, WF st → t ≠ '\x00' → t ≠ '\n' → peekC st = t →
    (interp cfg fuel).processLiteral raw '\x00' enc t st = .ok st1 →
    WF st1 ∧ ∃ d, rem st = d ++ rem st1 ∧
      st1.outLines = st.outLines ++ (if raw = true then 'R' :: d else d) ∧
      st1.out = st.out ∧ st1.sawFx = st.sawFx) ∧
  (∀ st st1, WF st → peekC st = '"' →
    (interp cfg fuel).processStringLiteral st = .ok st1 → st1.sawFx = false →
    WF st1 ∧ ∃ d, rem st = d ++ rem st1 ∧ st1.outLines = st.outLines ++ d ∧
      st1.out = st.out ∧ st1.sawFx = st.sawFx) ∧
  (∀ st st1, WF st → peekC st = '\'' →
    (interp cfg fuel).processCharLiteral st = .ok st1 →
    WF st1 ∧ ∃ d, rem st = d ++ rem st1 ∧ st1.outLines = st.outLines ++ d ∧
      st1.out = st.out ∧ st1.sawFx = st.sawFx) ∧
  (∀ b1 b2 st r, WF st → (interp cfg fuel).mainLoopInner b1 b2 st = .ok r →
    r.2.2.sawFx = false →
    WF r.2.2 ∧ ∃ d, rem st = d ++ rem r.2.2 ∧
      r.2.2.outLines = st.outLines ++ d ∧ r.2.2.out = st.out ∧
      r.2.2.sawFx = st.sawFx ∧ (peekC r.2.2 = '\n' ∨ peekC r.2.2 = '\x00')) ∧
  (∀ s st st1, WF st → (interp cfg fuel).mainLoop s st = .ok st1 →
    st1.sawFx = false →
    WF st1 ∧ st1.out ++ st1.outLines = st.out ++ st.outLines ++ rem st ∧
      st1.sawFx = st.sawFx ∧ (st1 = st ∨ st1.outLines = []))

/-! ## Small step lemmas about the cursor and the fuelled interpreter -/

theorem interp_succ (cfg : Config) (fuel : Nat) :
    interp cfg (fuel + 1) = interpStep cfg (interp cfg fuel) := rfl

theorem specLoop_succ (cfg : Config) (fuel : Nat) :
    specLoop cfg (fuel + 1) = specLoopB (interp cfg fuel) := rfl

theorem processExtractionField_succ (cfg : Config) (fuel : Nat) :
    processExtractionField cfg (fuel + 1) =
      processExtractionFieldB (interp cfg fuel) := rfl

theorem processExpression_succ (cfg : Config) (fuel : Nat) :
    processExpression cfg (fuel + 1) = processExpressionB (interp cfg fuel) := rfl

theorem litLoop_succ (cfg : Config) (fuel : Nat) :
    litLoop cfg (fuel + 1) = litLoopB (interp cfg fuel) := rfl

theorem prefixLoop_succ (cfg : Config) (fuel : Nat) :
    prefixLoop cfg (fuel + 1) = prefixLoopB (interp cfg fuel) := rfl

/-- `next` returns the peeked character whenever the line buffer is
nonempty. -/
theorem next_fst_of_ne (st : St) (h : st.cur ≠ []) : (next st).1 = peekC st := by
  match hc : st.cur with
  | [] => exact absurd hc h
  | c :: cs =>
    simp only [next, hc, peekC, List.headD]
    split <;> simp_all

/-- `next` returns either the peeked character or a newline. -/
theorem next_fst (st : St) : (next st).1 = peekC st ∨ (next st).1 = '\n' := by
  match hc : st.cur with
  | [] => right; simp [next, hc]
  | c :: cs => left; exact next_fst_of_ne st (by simp [hc])

/-- C3: for the input `f"{a ? b : c :4d}"` with formatter `std::format` and
line directives off, processing succeeds and produces
`std::format("{:4d}", a ? b : c )`: the top-level `?` makes the `:` after
`b` the ternary's colon, and only the following top-level `:` starts the
format-spec, copied verbatim into the placeholder. -/
theorem ternary_not_confused_with_format_spec :
    runOut cfgT 300 false (("f\"\x7ba ? b : c :4d\x7d\"").toList) =
      some (("std::format(\"\x7b:4d\x7d\", a ? b : c )").toList) := by
  decide

/-- C10: the debug-`=` suffix check is not guarded: for `f"{}"` the field
expression is empty, `pos` is `0`, and the code reads
`expression[pos - 1]` — an out-of-bounds access (modelled as `oobRead`),
so the claimed safety does not hold. -/
theorem empty_field_reads_out_of_bounds :
    runErr cfgT 300 false (("f\"\x7b\x7d\"").toList) = some Err.oobRead := by
  decide

/-- Helper: the format-spec loop appends text to the literal and pushes one
field per undoubled left brace it writes; at success the cursor is at the
closing right brace. -/
theorem specLoop_spec (cfg : Config) : ∀ fuel lit fields st lit1 fields1 st1,
    specLoop cfg fuel lit fields st = .ok ((lit1, fields1), st1) →
    ∃ d fs, lit1 = lit ++ d ∧ fields1 = fields ++ fs ∧
      d.count '\x7b' = fs.length ∧ peekC st1 = '\x7d' := by
  intro fuel
  induction fuel with
  | zero =>
    intro lit fields st lit1 fields1 st1 h
    exact absurd h (by simp [specLoop, interp, interpBase])
  | succ n ih =>
    intro lit fields st lit1 fields1 st1 h
    rw [specLoop_succ] at h
    unfold specLoopB at h
    simp only [] at h
    split_ifs at h with h1 h2
    · simp only [Except.ok.injEq, Prod.mk.injEq] at h
      obtain ⟨⟨hl, hf⟩, hs⟩ := h
      subst hl hf hs
      exact ⟨[], [], by simp, by simp, rfl, h1⟩
    · rcases hpe : (interp cfg n).processExpressionField (next st).2 with e | ⟨f, stx⟩ <;>
        rw [hpe] at h
      · exact absurd h (by simp)
      · simp only [] at h
        by_cases hpk : peekC stx = '\x7d'
        case neg => rw [if_pos hpk] at h; exact absurd h (by simp)
        case pos =>
          rw [if_neg (not_not_intro hpk)] at h
          obtain ⟨d, fs, hd1, hd2, hd3, hd4⟩ := ih _ _ _ _ _ _ h
          have hc1 : st.cur ≠ [] := by
            intro hc; simp [peekC, hc] at h2
          have hc2 : stx.cur ≠ [] := by
            intro hc; simp [peekC, hc] at hpk
          have hn1 : (next st).1 = '\x7b' := by rw [next_fst_of_ne st hc1, h2]
          have hn2 : (next stx).1 = '\x7d' := by rw [next_fst_of_ne stx hc2, hpk]
          refine ⟨'\x7b' :: '\x7d' :: d, f :: fs, ?_, ?_, ?_, hd4⟩
          · rw [hd1, hn1, hn2]; simp
          · rw [hd2]; simp
          · simp [List.count_cons, hd3]
    · obtain ⟨d, fs, hd1, hd2, hd3, hd4⟩ := ih _ _ _ _ _ _ h
      have hne : (next st).1 ≠ '\x7b' := by
        rcases next_fst st with hf | hf <;> rw [hf]
        · exact h2
        · decide
      refine ⟨(next st).1 :: d, fs, ?_, hd2, ?_, hd4⟩
      · rw [hd1]; simp
      · simp [List.count_cons, hd3, hne]

theorem processExpressionField_eq (cfg : Config) (fuel : Nat) :
    (interp cfg fuel).processExpressionField = processExpressionField cfg fuel := rfl

theorem specLoop_eq (cfg : Config) (fuel : Nat) :
    (interp cfg fuel).specLoop = specLoop cfg fuel := rfl

theorem processExpression_eq (cfg : Config) (fuel : Nat) :
    (interp cfg fuel).processExpression = processExpression cfg fuel := rfl

/-- Helper: a successful expression scan stops at a right brace or a colon
(the postcondition of `processExpression`, source lines 438-446). -/
theorem processExpression_post (cfg : Config) : ∀ fuel st st1,
    processExpression cfg fuel st = .ok st1 →
    peekC st1 = '\x7d' ∨ peekC st1 = ':' := by
  intro fuel
  induction fuel with
  | zero =>
    intro st st1 h
    exact absurd h (by simp [processExpression, interp, interpBase])
  | succ n ih =>
    intro st st1 h
    rw [processExpression_succ] at h
    unfold processExpressionB at h
    rcases hn : (interp cfg n).processNested st with e | stx <;> rw [hn] at h
    · exact absurd h (by simp)
    · simp only [] at h
      by_cases c1 : peekC stx = ')'
      · rw [if_pos c1] at h; exact absurd h (by simp)
      rw [if_neg c1] at h
      by_cases c2 : peekC stx = ']'
      · rw [if_pos c2] at h; exact absurd h (by simp)
      rw [if_neg c2] at h
      by_cases c3 : peekC stx = '?'
      · rw [if_pos c3] at h
        rcases hq : (interp cfg n).processExpression (xfer stx) with e | sty <;>
          rw [hq] at h
        · exact absurd h (by simp)
        · simp only [] at h
          by_cases c4 : peekC sty = ':'
          · rw [if_neg (not_not_intro c4)] at h
            rw [processExpression_eq] at h
            exact ih _ _ h
          · rw [if_pos c4] at h; exact absurd h (by simp)
      rw [if_neg c3] at h
      by_cases c5 : peekC stx = '\x7d'
      · rw [if_pos c5] at h
        injection h with h5
        rw [← h5]
        exact .inl c5
      rw [if_neg c5] at h
      by_cases c6 : peekC stx = ':'
      · rw [if_pos c6] at h
        by_cases c7 : peekK stx 1 = ':'
        · rw [if_neg (not_not_intro c7)] at h
          by_cases c8 : isalphaC (peekK stx 2) = false
          · rw [if_pos c8] at h
            injection h with h8
            rw [← h8]
            exact .inr c6
          · rw [if_neg c8] at h
            rw [processExpression_eq] at h
            exact ih _ _ h
        · rw [if_pos c7] at h
          injection h with h7
          rw [← h7]
          exact .inr c6
      · rw [if_neg c6] at h
        rw [processExpression_eq] at h
        exact ih _ _ h

/-- Helper: `processExpressionField` leaves the cursor at a right brace or
a colon and does not change `peek`-visible state relative to the inner
expression scan. -/
theorem processExpressionField_post (cfg : Config) : ∀ fuel st f st1,
    processExpressionField cfg fuel st = .ok (f, st1) →
    peekC st1 = '\x7d' ∨ peekC st1 = ':' := by
  intro fuel
  cases fuel with
  | zero =>
    intro st f st1 h
    exact absurd h (by simp [processExpressionField, interp, interpBase])
  | succ n =>
    intro st f st1 h
    have hsucc : processExpressionField cfg (n + 1) =
        processExpressionFieldB (interp cfg n) := rfl
    rw [hsucc] at h
    unfold processExpressionFieldB at h
    rcases he : (interp cfg n).processExpression { st with outLines := [] } with
      e | stx <;> rw [he] at h
    · exact absurd h (by simp)
    · simp only [Except.ok.injEq, Prod.mk.injEq] at h
      obtain ⟨-, hs⟩ := h
      rw [processExpression_eq] at he
      have := processExpression_post cfg n _ _ he
      rw [← hs]
      simpa [peekC] using this

/-- C4: whenever the scanned expression's last non-whitespace character
(the character at `stripPos - 1`) is `=`, the entire verbatim expression is
prepended to the literal body before the placeholder's `{`, and the field
recorded for the argument list is the expression truncated at that `=`
(dropping the `=` and the whitespace after it); concretely,
`f"{foo = }"` rewrites to `std::format("foo = {}", foo )`. -/
theorem debug_eq_suffix_confirmed :
    (∀ (cfg : Config) (fuel : Nat) (lit : List Char) (fields : List Field)
      (st : St) (f : Field) (st1 : St) (lit1 : List Char)
      (fields1 : List Field) (st2 : St),
      processExpressionField cfg fuel st = .ok (f, st1) →
      stripPos f.expression ≠ 0 →
      f.expression.getD (stripPos f.expression - 1) ' ' = '=' →
      processExtractionField cfg (fuel + 1) lit fields st = .ok ((lit1, fields1), st2) →
      ∃ d fs, lit1 = lit ++ f.expression ++ '\x7b' :: d ∧
        fields1 = fields ++
          { f with expression := f.expression.take (stripPos f.expression - 1) } :: fs) ∧
    runOut cfgT 300 false (("f\"\x7bfoo = \x7d\"").toList) =
      some (("std::format(\"foo = \x7b\x7d\", foo )").toList) := by
  constructor
  · intro cfg fuel lit fields st f st1 lit1 fields1 st2 h1 h2 h3 h4
    rw [processExtractionField_succ] at h4
    unfold processExtractionFieldB at h4
    rw [processExpressionField_eq, h1] at h4
    simp only [] at h4
    rw [if_neg h2, if_pos h3] at h4
    unfold pefFinish at h4
    by_cases hc : peekC st1 = ':'
    · rw [if_pos hc] at h4
      simp only [specLoop_eq] at h4
      obtain ⟨d, fs, hd1, hd2, -, -⟩ := specLoop_spec cfg fuel _ _ _ _ _ _ h4
      refine ⟨(next st1).1 :: d, fs, ?_, ?_⟩
      · rw [hd1]; simp
      · rw [hd2]; simp
    · rw [if_neg hc] at h4
      simp only [Except.ok.injEq, Prod.mk.injEq] at h4
      obtain ⟨⟨hl, hf⟩, -⟩ := h4
      exact ⟨[], [], by rw [← hl], by rw [← hf]⟩
  · decide

/-- C4 witness: the general statement applied to the field of
`f"{foo = }"`. -/
theorem debug_eq_suffix_confirmed_witness :
    ∃ d fs,
      (("\"foo = \x7b").toList : List Char) =
        ['"'] ++ ("foo = ").toList ++ '\x7b' :: d ∧
      ([{ line := 1, col := 3, expression := ("foo ").toList }] : List Field) =
        [] ++ { line := 1, col := 3,
                expression := (("foo = ").toList).take
                  (stripPos (("foo = ").toList) - 1) } :: fs :=
  debug_eq_suffix_confirmed.1 cfgT 50 (['"']) []
    { cur := ("foo = \x7d\"").toList, rest := [], eof := true, lineNo := 1,
      linePos := 3, outLines := [], out := [], lineDirectives := false,
      sawFx := true }
    { line := 1, col := 3, expression := ("foo = ").toList }
    { cur := ['\x7d', '"'], rest := [], eof := true, lineNo := 1,
      linePos := 9, outLines := [], out := [], lineDirectives := false,
      sawFx := true }
    (("\"foo = \x7b").toList)
    [{ line := 1, col := 3, expression := ("foo ").toList }]
    { cur := ['\x7d', '"'], rest := [], eof := true, lineNo := 1,
      linePos := 9, outLines := [], out := [], lineDirectives := false,
      sawFx := true }
    (by decide) (by decide) (by decide) (by decide)

/-- C2 (amended): for every extraction field whose expression does not end
(ignoring trailing whitespace) in a debug `=`, the text appended to the
literal body is `{`, followed by nothing or by `:` and the format-spec, and
the number of left braces appended equals the number of argument
expressions appended; at success the cursor is at the field's closing
brace. -/
theorem placeholder_parity_nodebug :
    ∀ (cfg : Config) (fuel : Nat) (lit : List Char) (fields : List Field)
      (st : St) (f : Field) (st1 : St) (lit1 : List Char)
      (fields1 : List Field) (st2 : St),
      processExpressionField cfg fuel st = .ok (f, st1) →
      stripPos f.expression ≠ 0 →
      f.expression.getD (stripPos f.expression - 1) ' ' ≠ '=' →
      processExtractionField cfg (fuel + 1) lit fields st = .ok ((lit1, fields1), st2) →
      ∃ d fs, lit1 = lit ++ '\x7b' :: d ∧ fields1 = fields ++ f :: fs ∧
        ('\x7b' :: d).count '\x7b' = (f :: fs).length ∧
        (d = [] ∨ d.headD ' ' = ':') ∧ peekC st2 = '\x7d' := by
  intro cfg fuel lit fields st f st1 lit1 fields1 st2 h1 h2 h3 h4
  rw [processExtractionField_succ] at h4
  unfold processExtractionFieldB at h4
  rw [processExpressionField_eq, h1] at h4
  simp only [] at h4
  rw [if_neg h2, if_neg h3] at h4
  unfold pefFinish at h4
  by_cases hc : peekC st1 = ':'
  · rw [if_pos hc] at h4
    simp only [specLoop_eq] at h4
    obtain ⟨d, fs, hd1, hd2, hd3, hd4⟩ := specLoop_spec cfg fuel _ _ _ _ _ _ h4
    have hcur : st1.cur ≠ [] := by intro hcc; simp [peekC, hcc] at hc
    have hn : (next st1).1 = ':' := by rw [next_fst_of_ne st1 hcur, hc]
    refine ⟨(next st1).1 :: d, fs, ?_, ?_, ?_, ?_, hd4⟩
    · rw [hd1]; simp
    · rw [hd2]; simp
    · simp [List.count_cons, hd3, hn]
    · right; simp [hn]
  · rw [if_neg hc] at h4
    simp only [Except.ok.injEq, Prod.mk.injEq] at h4
    obtain ⟨⟨hl, hf⟩, hs⟩ := h4
    have hpost := processExpressionField_post cfg fuel st f st1 h1
    refine ⟨[], [], by rw [← hl], by rw [← hf], by simp, .inl rfl, ?_⟩
    rw [← hs]
    rcases hpost with hp | hp
    · exact hp
    · exact absurd hp hc

/-- C2 (amendment) witness: instantiated at the field of `f"{a}"`. -/
theorem placeholder_parity_nodebug_witness :
    ∃ d fs,
      (['"', '\x7b'] : List Char) = ['"'] ++ '\x7b' :: d ∧
      ([{ line := 1, col := 3, expression := ['a'] }] : List Field) =
        [] ++ { line := 1, col := 3, expression := ['a'] } :: fs ∧
      ('\x7b' :: d).count '\x7b' =
        ({ line := 1, col := 3, expression := ['a'] } :: fs).length ∧
      (d = [] ∨ d.headD ' ' = ':') ∧
      peekC { cur := ['\x7d', '"'], rest := [], eof := true, lineNo := 1,
              linePos := 4, outLines := [], out := [], lineDirectives := false,
              sawFx := true } = '\x7d' :=
  placeholder_parity_nodebug cfgT 50 (['"']) []
    { cur := ("a\x7d\"").toList, rest := [], eof := true, lineNo := 1,
      linePos := 3, outLines := [], out := [], lineDirectives := false,
      sawFx := true }
    { line := 1, col := 3, expression := ['a'] }
    { cur := ['\x7d', '"'], rest := [], eof := true, lineNo := 1,
      linePos := 4, outLines := [], out := [], lineDirectives := false,
      sawFx := true }
    (['"', '\x7b'])
    [{ line := 1, col := 3, expression := ['a'] }]
    { cur := ['\x7d', '"'], rest := [], eof := true, lineNo := 1,
      linePos := 4, outLines := [], out := [], lineDirectives := false,
      sawFx := true }
    (by decide) (by decide) (by decide) (by decide)

/-- C2 counterexample: for `f"{a{}=}"` the run succeeds, the debug-`=`
prepending writes the expression's braces into the literal body, and the
body of the rewritten literal carries two undoubled left braces while a
single argument is hoisted. -/
theorem placeholder_parity_counterexample :
    runOut cfgT 300 false (("f\"\x7ba\x7b\x7d=\x7d\"").toList) =
      some (("std::format(\"a\x7b\x7d=\x7b\x7d\", a\x7b\x7d)").toList) ∧
    processExtractionField cfgT 50 (['"']) []
      { cur := ("a\x7b\x7d=\x7d\"").toList, rest := [], eof := true,
        lineNo := 1, linePos := 3, outLines := [], out := [],
        lineDirectives := false, sawFx := true } =
      .ok (((("\"a\x7b\x7d=\x7b").toList),
            [{ line := 1, col := 3, expression := ("a\x7b\x7d").toList }]),
           { cur := ['\x7d', '"'], rest := [], eof := true, lineNo := 1,
             linePos := 7, outLines := [], out := [], lineDirectives := false,
             sawFx := true }) ∧
    countUndoubled (("\"a\x7b\x7d=\x7b\x7d").toList) = 2 := by
  refine ⟨by decide, by decide, by decide⟩

set_option maxRecDepth 40000 in
/-- C5: at end of input inside a format-spec the C++ code constructs
`EarlyEnd` without throwing it (source line 376) and then loops forever
transferring phantom newlines: the spec loop exhausts every fuel budget
once the input is gone, and the failing input from the source's own test
table exhausts a large budget instead of failing with `EarlyEnd`. -/
theorem format_spec_eof_diverges :
    (∀ fuel lit fields st, st.cur = [] → st.rest = [] →
      specLoop cfgT fuel lit fields st = .error .outOfFuel) ∧
    runErr cfgT 600 false (("f\"The number is: \x7b3 * 5: a\"").toList) =
      some .outOfFuel := by
  constructor
  · intro fuel
    induction fuel with
    | zero => intro lit fields st h1 h2; rfl
    | succ n ih =>
      intro lit fields st h1 h2
      rw [specLoop_succ]
      unfold specLoopB
      have hpk : peekC st = '\x00' := by simp [peekC, h1]
      rw [if_neg (by simp [hpk]), if_neg (by simp [hpk])]
      simp only [next, h1, getNextLine, h2, splitLine]
      rw [specLoop_eq]
      exact ih _ _ _ rfl rfl
  · decide

/-- C5 witness: the spec loop out of fuel at an exhausted input state. -/
theorem format_spec_eof_diverges_witness :
    specLoop cfgT 3 [] []
      { cur := [], rest := [], eof := true, lineNo := 2, linePos := 0,
        outLines := [], out := [], lineDirectives := false, sawFx := true } =
      .error .outOfFuel :=
  format_spec_eof_diverges.1 3 [] [] _ rfl rfl

theorem litLoop_eq (cfg : Config) (fuel : Nat) :
    (interp cfg fuel).litLoop = litLoop cfg fuel := rfl

/-- C6: inside the body of an f/x literal and outside any field a right
brace must be doubled: `}}` is transferred into the body as two characters
and scanning continues, while a lone `}` raises the doubling
`ParsingError`; concretely `f"Just braces {{} {a}"` fails with it. -/
theorem lone_rbrace_fatal :
    (∀ (cfg : Config) (fuel : Nat) (raw : Bool) (fx : Char) (pfx : List Char)
      (t : Char) (lit : List Char) (fields : List Field) (backslash : Bool)
      (st : St) (cs : List Char),
      st.cur = '\x7d' :: cs → fx ≠ '\x00' → t ≠ '\x7d' →
      ((cs.headD '\x00' ≠ '\x7d' →
        litLoop cfg (fuel + 1) raw fx pfx t lit fields backslash st =
          .error (.parsingError st.lineNo
            "Right brace characters must be doubled in f/x string literals.")) ∧
       (∀ cs2, cs = '\x7d' :: cs2 →
        litLoop cfg (fuel + 1) raw fx pfx t lit fields backslash st =
          litLoop cfg fuel raw fx pfx t (lit ++ ['\x7d', '\x7d']) fields
            (if raw = true then backslash else false) (skipChars st 2)))) ∧
    runErr cfgT 300 false (("f\"Just braces \x7b\x7b\x7d \x7ba\x7d\"").toList) =
      some (.parsingError 1
        "Right brace characters must be doubled in f/x string literals.") := by
  constructor
  · intro cfg fuel raw fx pfx t lit fields backslash st cs hcur hfx ht
    have hpk : peekC st = '\x7d' := by simp [peekC, hcur]
    have hnext : next st = ('\x7d', { st with cur := cs, linePos := st.linePos + 1 }) := by
      simp [next, hcur]
    have stage2err : ∀ bs, cs.headD '\x00' ≠ '\x7d' →
        litLoopStage2 (interp cfg fuel) raw fx pfx t lit fields bs st =
          .error (.parsingError st.lineNo
            "Right brace characters must be doubled in f/x string literals.") := by
      intro bs hne
      unfold litLoopStage2
      rw [if_neg (by rw [hpk]; exact fun hh => absurd hh.2 (by decide))]
      rw [if_pos ⟨hfx, hpk⟩]
      simp only [hnext]
      rw [if_pos (by simpa [peekC] using hne)]
    have stage2cont : ∀ bs cs2, cs = '\x7d' :: cs2 →
        litLoopStage2 (interp cfg fuel) raw fx pfx t lit fields bs st =
          litLoop cfg fuel raw fx pfx t (lit ++ ['\x7d', '\x7d']) fields bs
            (skipChars st 2) := by
      intro bs cs2 hcs
      unfold litLoopStage2
      rw [if_neg (by rw [hpk]; exact fun hh => absurd hh.2 (by decide))]
      rw [if_pos ⟨hfx, hpk⟩]
      simp only [hnext]
      rw [if_neg (by simp [peekC, hcs])]
      unfold litLoopBottom
      rw [litLoop_eq]
      simp only [next, hcs]
      have h1 : st.linePos + 1 + 1 = st.linePos + 2 := rfl
      have h2 : (lit ++ ['\x7d']) ++ ['\x7d'] = lit ++ ['\x7d', '\x7d'] := by simp
      simp [skipChars, hcur, hcs, h1, h2]
    have houter :
        litLoopB (interp cfg fuel) raw fx pfx t lit fields backslash st =
          litLoopStage2 (interp cfg fuel) raw fx pfx t lit fields
            (if raw = true then backslash else false) st := by
      unfold litLoopB
      cases raw with
      | true =>
        rw [if_pos rfl, if_neg (by rw [hpk]; exact (by decide : ¬ ('\x7d':Char) = '\x00'))]
        rw [if_neg (by rw [hpk]; exact fun hh => absurd hh.1 (by decide))]
        simp
      | false =>
        rw [if_neg (by simp)]
        rw [if_neg (by rw [hpk]; exact (by decide : ¬ ('\x7d':Char) = '\\'))]
        have hno : ¬ peekC st = t := by rw [hpk]; exact fun hh => ht hh.symm
        rw [if_neg hno]
        rw [if_neg (by rw [hpk]; exact (by decide : ¬ ('\x7d':Char) = '\x00'))]
        rw [if_neg (by rw [hpk]; exact fun hh => absurd hh.2 (by decide))]
        rw [if_pos (by rw [hpk]; exact .inr (by decide))]
        simp
    constructor
    · intro hne
      rw [litLoop_succ]
      show litLoopB (interp cfg fuel) raw fx pfx t lit fields backslash st = _
      rw [houter]
      exact stage2err _ hne
    · intro cs2 hcs
      rw [litLoop_succ]
      show litLoopB (interp cfg fuel) raw fx pfx t lit fields backslash st = _
      rw [houter]
      exact stage2cont _ cs2 hcs
  · decide

/-- C6 witness: the general statement applied at the lone `}` of
`f"Just braces {{} {a}"` (after the doubled braces were transferred). -/
theorem lone_rbrace_fatal_witness :
    ((" \x7ba\x7d\"").toList.headD '\x00' ≠ '\x7d' →
      litLoop cfgT 13 false 'f' [] '"' (("\"Just braces \x7b\x7b").toList) [] false
        { cur := ("\x7d \x7ba\x7d\"").toList, rest := [], eof := true,
          lineNo := 1, linePos := 16, outLines := [], out := [],
          lineDirectives := false, sawFx := true } =
        .error (.parsingError 1
          "Right brace characters must be doubled in f/x string literals.")) ∧
    (∀ cs2, (" \x7ba\x7d\"").toList = '\x7d' :: cs2 →
      litLoop cfgT 13 false 'f' [] '"' (("\"Just braces \x7b\x7b").toList) [] false
        { cur := ("\x7d \x7ba\x7d\"").toList, rest := [], eof := true,
          lineNo := 1, linePos := 16, outLines := [], out := [],
          lineDirectives := false, sawFx := true } =
        litLoop cfgT 12 false 'f' [] '"'
          ((("\"Just braces \x7b\x7b").toList) ++ ['\x7d', '\x7d']) []
          (if false = true then false else false)
          (skipChars
            { cur := ("\x7d \x7ba\x7d\"").toList, rest := [], eof := true,
              lineNo := 1, linePos := 16, outLines := [], out := [],
              lineDirectives := false, sawFx := true } 2)) :=
  lone_rbrace_fatal.1 cfgT 12 false 'f' [] '"' (("\"Just braces \x7b\x7b").toList)
    [] false
    { cur := ("\x7d \x7ba\x7d\"").toList, rest := [], eof := true, lineNo := 1,
      linePos := 16, outLines := [], out := [], lineDirectives := false,
      sawFx := true }
    ((" \x7ba\x7d\"").toList) (by decide) (by decide) (by decide)

/-- C7 (amended): the raw-literal delimiter collection fails only when the
line or the input ends before the `(`; the `ParsingError` carries the
current line number.  Concretely `R"abc` fails with it. -/
theorem raw_prefix_line_end_only :
    (∀ (cfg : Config) (fuel : Nat) (pfx : List Char) (st : St),
      peekC st = '\n' ∨ peekC st = '\x00' →
      prefixLoop cfg (fuel + 1) pfx st =
        .error (.parsingError st.lineNo
          " ends in a raw literal prefix. There must be a ( before the end of line after R\".")) ∧
    runErr cfgT 300 false (("R\"abc").toList) =
      some (.parsingError 1
        " ends in a raw literal prefix. There must be a ( before the end of line after R\".") := by
  constructor
  · intro cfg fuel pfx st h
    rw [prefixLoop_succ]
    unfold prefixLoopB
    have hno : ¬ peekC st = '(' := by
      rcases h with h | h <;> rw [h] <;> decide
    rw [if_neg hno, if_pos h.symm]
  · decide

/-- C7 (amendment) witness. -/
theorem raw_prefix_line_end_only_witness :
    prefixLoop cfgT 8 (("ab").toList)
      { cur := [], rest := [], eof := true, lineNo := 1, linePos := 5,
        outLines := [], out := [], lineDirectives := false, sawFx := false } =
      .error (.parsingError 1
        " ends in a raw literal prefix. There must be a ( before the end of line after R\".") :=
  raw_prefix_line_end_only.1 cfgT 7 (("ab").toList) _ (by right; decide)

/-- C7 counterexample: raw-literal delimiters containing a space, `)`,
`\` or `"` are accepted and transcribed verbatim; the run succeeds. -/
theorem raw_prefix_accepts_special_chars :
    runOut cfgT 300 false (("R\"a b(x)a b\"").toList) =
      some (("R\"a b(x)a b\"").toList) ∧
    runOut cfgT 300 false (("R\"a)b(x)a)b\"").toList) =
      some (("R\"a)b(x)a)b\"").toList) ∧
    runOut cfgT 300 false (("R\"a\\\"b(x)a\\\"b\"").toList) =
      some (("R\"a\\\"b(x)a\\\"b\"").toList) := by
  refine ⟨by decide, by decide, by decide⟩

/-- C8 (amended): with line directives on, each hoisted field expression is
emitted as a newline, `#line L "path"`, a newline, `col - 2` spaces, then
`", "` and the verbatim expression; no second restoring directive follows
the literal.  The concrete run shows the full output. -/
theorem directive_per_field :
    (∀ (cfg : Config) (fields : List Field), (∀ f ∈ fields, 2 ≤ f.col) →
      emitFields cfg true fields = .ok ((fields.map (fun f =>
        ('\n' :: ((("#line ").toList) ++ Nat.toDigits 10 f.line ++
          ((" \"").toList) ++ cfg.sourceFile ++ (("\"\n").toList) ++
          List.replicate (f.col - 2) ' ')) ++
        ',' :: ' ' :: f.expression)).flatten)) ∧
    runOut cfgT 300 true (("Lf\"The number is: \x7b3 * 5\x7d\"").toList) =
      some (("\n#line 1 \"test\"\nstd::format(L\"The number is: \x7b\x7d\"\n#line 1 \"test\"\n                 , 3 * 5)").toList) := by
  constructor
  · intro cfg fields
    induction fields with
    | nil => intro _; simp [emitFields]
    | cons f fs ih =>
      intro hcol
      have hfs : ∀ g ∈ fs, 2 ≤ g.col := fun g hg => hcol g (by simp [hg])
      have hf : 2 ≤ f.col := hcol f (by simp)
      have htn : ((f.col : Int) - 2).toNat = f.col - 2 := by omega
      have hnn : ¬((f.col : Int) - 2 < 0) := by omega
      simp only [emitFields, makeLineDirective, ih hfs, List.map_cons]
      rw [if_neg (by simp), if_neg hnn]
      simp only [htn, bind, Except.bind]
      simp [List.append_assoc]
  · decide

/-- C8 (amendment) witness: the emission formula instantiated at the field
of the concrete run. -/
theorem directive_per_field_witness :
    emitFields cfgT true [{ line := 1, col := 19, expression := ("3 * 5").toList }] =
      .ok ((([{ line := 1, col := 19, expression := ("3 * 5").toList }] : List Field).map
        (fun f => ('\n' :: ((("#line ").toList) ++ Nat.toDigits 10 f.line ++
          ((" \"").toList) ++ cfgT.sourceFile ++ (("\"\n").toList) ++
          List.replicate (f.col - 2) ' ')) ++
        ',' :: ' ' :: f.expression)).flatten) :=
  directive_per_field.1 cfgT
    ([{ line := 1, col := 19, expression := ("3 * 5").toList }] : List Field) (by decide)

/-- C8 counterexample: in the concrete run with line directives on, the
output past the initial directive contains exactly one `#line` marker
(the one preceding the hoisted field); no second marker restoring the
position after the literal is emitted. -/
theorem no_restore_directive_counterexample :
    runOut cfgT 300 true (("Lf\"The number is: \x7b3 * 5\x7d\"").toList) =
      some (("\n#line 1 \"test\"\nstd::format(L\"The number is: \x7b\x7d\"\n#line 1 \"test\"\n                 , 3 * 5)").toList) ∧
    (("\n#line 1 \"test\"\nstd::format(L\"The number is: \x7b\x7d\"\n#line 1 \"test\"\n                 , 3 * 5)").toList).count '#' = 2 ∧
    ((("\n#line 1 \"test\"\nstd::format(L\"The number is: \x7b\x7d\"\n#line 1 \"test\"\n                 , 3 * 5)").toList).drop 16).count '#' = 1 := by
  refine ⟨by decide, by decide, by decide⟩

/-- C9 (amended): in an expression field at depth zero, a `:` immediately
followed by `:` and an alphabetic character is consumed as a scope
resolution `::` (both colons go to the output) and scanning continues;
an identifier start that is an underscore does not qualify. -/
theorem scope_resolution_needs_alpha :
    (∀ (cfg : Config) (fuel : Nat) (st : St),
      peekC st = ':' → peekK st 1 = ':' → isalphaC (peekK st 2) = true →
      processExpression cfg (fuel + 2) st =
        processExpression cfg (fuel + 1) (xfer (xfer st))) ∧
    (∀ (st : St) (cs : List Char), st.cur = ':' :: ':' :: cs →
      xfer (xfer st) = { st with cur := cs, linePos := st.linePos + 2,
                                 outLines := st.outLines ++ [':', ':'] }) := by
  constructor
  · intro cfg fuel st h1 h2 h3
    have hstep : processExpression cfg (fuel + 2) st =
        processExpressionB (interp cfg (fuel + 1)) st := rfl
    rw [hstep]
    unfold processExpressionB
    have hn : (interp cfg (fuel + 1)).processNested st = .ok st := by
      rw [interp_succ]
      show processNestedB (interp cfg fuel) st = .ok st
      unfold processNestedB
      rw [if_neg (by rw [h1]; decide)]
      rw [if_neg (by rw [h1]; exact fun hh => by rcases hh with hh | hh | hh <;> exact absurd hh (by decide))]
      rw [if_neg (by rw [h1]; decide), if_neg (by rw [h1]; decide),
          if_neg (by rw [h1]; decide)]
    rw [hn]
    simp only []
    rw [if_neg (by rw [h1]; decide), if_neg (by rw [h1]; decide),
        if_neg (by rw [h1]; decide)]
    rw [if_neg (by rw [h1]; decide), if_pos h1]
    rw [if_neg (not_not_intro h2), if_neg (by rw [h3]; decide)]
    rfl
  · intro st cs hc
    have h1 : st.cur = ':' :: (':' :: cs) := hc
    simp [xfer, next, h1]

/-- C9 (amendment) witness: `std::rand` style scope resolution consumed. -/
theorem scope_resolution_needs_alpha_witness :
    processExpression cfgT 12
      { cur := ("::rand()\x7d\"").toList, rest := [], eof := true, lineNo := 1,
        linePos := 6, outLines := ("std").toList, out := [],
        lineDirectives := false, sawFx := true } =
      processExpression cfgT 11 (xfer (xfer
        { cur := ("::rand()\x7d\"").toList, rest := [], eof := true, lineNo := 1,
          linePos := 6, outLines := ("std").toList, out := [],
          lineDirectives := false, sawFx := true })) :=
  scope_resolution_needs_alpha.1 cfgT 10 _ (by decide) (by decide) (by decide)

/-- C9 counterexample: after `std` in `f"{std::_val}"` the scanner sees
`::_` and, because `_` is not alphabetic, returns without consuming the
colons; the full run therefore puts `::_val` into the format-spec and
hoists only `std`. -/
theorem scope_resolution_underscore_counterexample :
    processExpression cfgT 50
      { cur := ("::_val\x7d\"").toList, rest := [], eof := true, lineNo := 1,
        linePos := 6, outLines := ("std").toList, out := [],
        lineDirectives := false, sawFx := true } =
      .ok { cur := ("::_val\x7d\"").toList, rest := [], eof := true, lineNo := 1,
            linePos := 6, outLines := ("std").toList, out := [],
            lineDirectives := false, sawFx := true } ∧
    runOut cfgT 300 false (("f\"\x7bstd::_val\x7d\"").toList) =
      some (("std::format(\"\x7b::_val\x7d\", std)").toList) := by
  refine ⟨by decide, by decide⟩

/-- C1 counterexample: the claim's success assertion fails on `/*`
(an input with no string literal at all, hence no f/x literal, on which
the run raises `EarlyEnd`); and for an input containing a NUL byte the
run succeeds but drops the bytes after the NUL. -/
theorem passthrough_counterexample :
    (('"' ∉ ("/*").toList) ∧
      runErr cfgT 50 false (("/*").toList) =
        some (.earlyEnd "/* unmatched to the end of the input.")) ∧
    (('"' ∉ ("a\x00b").toList) ∧
      runOut cfgT 50 false (("a\x00b").toList) = some (("a").toList)) := by
  refine ⟨⟨by decide, by decide⟩, ⟨by decide, by decide⟩⟩

/-! ## The passthrough invariant: splitLine and cursor lemmas -/

theorem splitLine_append (xs : List Char) :
    (splitLine xs).1 ++ (splitLine xs).2.1 = xs := by
  induction xs with
  | nil => rfl
  | cons c cs ih =>
    by_cases h : c = '\n' <;> simp [splitLine, h, ih]

theorem splitLine_no_nul (xs : List Char) (h : '\x00' ∉ xs) :
    '\x00' ∉ (splitLine xs).1 ∧ '\x00' ∉ (splitLine xs).2.1 := by
  induction xs with
  | nil => simp [splitLine]
  | cons c cs ih =>
    simp only [List.mem_cons, not_or] at h
    by_cases hn : c = '\n'
    · simp [splitLine, hn, h.1, h.2]
    · have := ih h.2
      simp [splitLine, hn, h.1, this.1, this.2]

theorem splitLine_dropLast (xs : List Char) :
    ∀ c ∈ (splitLine xs).1.dropLast, c ≠ '\n' := by
  induction xs with
  | nil => simp [splitLine]
  | cons c cs ih =>
    by_cases hn : c = '\n'
    · simp [splitLine, hn]
    · intro x hx
      simp only [splitLine, hn, if_false] at hx
      rcases hr : (splitLine cs).1 with _ | ⟨y, ys⟩
      · rw [hr] at hx; simp at hx
      · rw [hr, List.dropLast_cons₂] at hx
        rcases List.mem_cons.mp hx with h | h
        · rw [h]; exact hn
        · exact ih x (by rw [hr]; exact h)

theorem splitLine_eof (xs : List Char) (h : (splitLine xs).2.2 = true) :
    (splitLine xs).2.1 = [] ∧ '\n' ∉ (splitLine xs).1 := by
  induction xs with
  | nil => simp [splitLine]
  | cons c cs ih =>
    by_cases hn : c = '\n'
    · rw [splitLine, if_pos hn] at h; simp at h
    · rw [splitLine, if_neg hn] at h ⊢
      have := ih h
      simp [this.1, this.2, hn, Ne.symm hn]

theorem splitLine_last (xs : List Char) (h : (splitLine xs).2.2 = false) :
    (splitLine xs).1.getLast? = some '\n' := by
  induction xs with
  | nil => simp [splitLine] at h
  | cons c cs ih =>
    by_cases hn : c = '\n'
    · simp [splitLine, hn]
    · rw [splitLine, if_neg hn] at h ⊢
      simp only [] at h ⊢
      have := ih h
      rcases hr : (splitLine cs).1 with _ | ⟨y, ys⟩
      · rw [hr] at this; simp at this
      · rw [hr] at this
        rw [List.getLast?_cons_cons]
        exact this

theorem getNextLine_WF (st : St) (h0 : '\x00' ∉ st.rest)
    (h1 : st.eof = true → st.rest = []) : WF (getNextLine st) := by
  have hs := splitLine_no_nul st.rest h0
  refine ⟨hs.1, hs.2, splitLine_dropLast st.rest, ?_, ?_⟩
  · intro he
    simp only [getNextLine] at he ⊢
    rcases hb : (splitLine st.rest).2.2 with _ | _
    · rw [hb, Bool.or_false] at he
      rw [h1 he] at hb
      simp [splitLine] at hb
    · exact splitLine_eof st.rest hb
  · intro he
    simp only [getNextLine] at he ⊢
    rcases hb : (splitLine st.rest).2.2 with _ | _
    · exact splitLine_last st.rest hb
    · rw [hb, Bool.or_true] at he; cases he

theorem rem_getNextLine (st : St) : rem (getNextLine st) = st.rest := by
  simp [rem, getNextLine, splitLine_append]

theorem WF_initSt (ld : Bool) (input : List Char) (h : '\x00' ∉ input) :
    WF (initSt ld input) :=
  getNextLine_WF _ h (by intro hc; cases hc)

theorem rem_initSt (ld : Bool) (input : List Char) :
    rem (initSt ld input) = input := rem_getNextLine _

theorem peekC_nul (st : St) (hWF : WF st) :
    peekC st = '\x00' ↔ st.cur = [] := by
  constructor
  · intro h
    rcases hc : st.cur with _ | ⟨c, cs⟩
    · rfl
    · exfalso
      simp only [peekC, hc, List.headD_cons] at h
      apply hWF.1
      rw [hc, ← h]
      exact List.mem_cons_self _ _
  · intro h; simp [peekC, h]

/-- The elementary consumption step: `next` on a well-formed state with a
character available consumes exactly the peeked character. -/
theorem WF_tail (st : St) (c : Char) (cs : List Char) (hc : st.cur = c :: cs)
    (hWF : WF st) (hn : c ≠ '\n') (k : Nat) :
    WF { st with cur := cs, linePos := k } := by
  refine ⟨?_, hWF.2.1, ?_, ?_, ?_⟩
  · show '\x00' ∉ cs
    intro hm; exact hWF.1 (by rw [hc]; exact List.mem_cons_of_mem c hm)
  · show ∀ x ∈ cs.dropLast, x ≠ '\n'
    intro x hx
    refine hWF.2.2.1 x ?_
    rw [hc]
    rcases hcs : cs with _ | ⟨y, ys⟩
    · rw [hcs] at hx; cases hx
    · rw [hcs] at hx
      rw [List.dropLast_cons₂]
      exact List.mem_cons_of_mem c hx
  · show st.eof = true → st.rest = [] ∧ '\n' ∉ cs
    intro he
    have := hWF.2.2.2.1 he
    exact ⟨this.1, fun hm => this.2 (by rw [hc]; exact List.mem_cons_of_mem c hm)⟩
  · show st.eof = false → cs.getLast? = some '\n'
    intro he
    have hlast := hWF.2.2.2.2 he
    rcases hcs : cs with _ | ⟨y, ys⟩
    · exfalso
      rw [hc, hcs] at hlast
      simp only [List.getLast?_singleton, Option.some.injEq] at hlast
      exact hn hlast
    · rw [hc, hcs, List.getLast?_cons_cons] at hlast
      exact hlast

theorem next_verb (st : St) (hWF : WF st) (hne : peekC st ≠ '\x00') :
    rem st = peekC st :: rem (next st).2 ∧ WF (next st).2 ∧
    (next st).2.outLines = st.outLines ∧ (next st).2.out = st.out ∧
    (next st).2.sawFx = st.sawFx ∧
    (next st).2.lineDirectives = st.lineDirectives := by
  rcases hc : st.cur with _ | ⟨c, cs⟩
  · exact absurd ((peekC_nul st hWF).mpr hc) hne
  · have hpk : peekC st = c := by simp [peekC, hc]
    by_cases hn : c = '\n'
    · subst hn
      have hcs : cs = [] := by
        rcases hcs : cs with _ | ⟨y, ys⟩
        · rfl
        · exfalso
          have hmem : '\n' ∈ st.cur.dropLast := by
            rw [hc, hcs, List.dropLast_cons₂]; exact List.mem_cons_self _ _
          exact hWF.2.2.1 '\n' hmem rfl
      have heof : st.eof = false := by
        rcases he : st.eof with _ | _
        · rfl
        · exact absurd (by rw [hc]; exact List.mem_cons_self _ _)
            (fun hm => (hWF.2.2.2.1 he).2 hm)
      have hnext : next st = ('\n', getNextLine st) := by simp [next, hc]
      rw [hnext]
      refine ⟨?_, ?_, rfl, rfl, rfl, rfl⟩
      · show rem st = peekC st :: rem (getNextLine st)
        rw [rem_getNextLine, hpk, rem, hc, hcs]
        rfl
      · show WF (getNextLine st)
        exact getNextLine_WF st hWF.2.1
          (fun he => absurd he (by rw [heof]; decide))
    · have hnext : next st =
          (c, { st with cur := cs, linePos := st.linePos + 1 }) := by
        simp [next, hc, hn]
      rw [hnext]
      refine ⟨?_, WF_tail st c cs hc hWF hn _, rfl, rfl, rfl, rfl⟩
      show rem st = peekC st :: (cs ++ st.rest)
      rw [hpk, rem, hc]
      rfl

/-- The elementary transcription step: `xfer` moves the peeked character to
`outLines` unchanged. -/
theorem xfer_verb (st : St) (hWF : WF st) (hne : peekC st ≠ '\x00') :
    rem st = peekC st :: rem (xfer st) ∧ WF (xfer st) ∧
    (xfer st).outLines = st.outLines ++ [peekC st] ∧
    (xfer st).out = st.out ∧ (xfer st).sawFx = st.sawFx ∧
    (xfer st).lineDirectives = st.lineDirectives := by
  have hcur : st.cur ≠ [] := fun hc => hne ((peekC_nul st hWF).mpr hc)
  have hfst := next_fst_of_ne st hcur
  obtain ⟨h1, h2, h3, h4, h5, h6⟩ := next_verb st hWF hne
  refine ⟨?_, ?_, ?_, ?_, ?_, ?_⟩ <;>
    simp only [xfer, rem] at *
  · exact h1
  · exact ⟨h2.1, h2.2.1, h2.2.2.1, h2.2.2.2.1, h2.2.2.2.2⟩
  · rw [h3, hfst]
  · exact h4
  · exact h5
  · exact h6

@[simp] theorem sawFx_getNextLine (st : St) :
    (getNextLine st).sawFx = st.sawFx := rfl

@[simp] theorem sawFx_next (st : St) : (next st).2.sawFx = st.sawFx := by
  rcases hc : st.cur with _ | ⟨c, cs⟩
  · simp [next, hc]
  · by_cases hn : c = '\n' <;> simp [next, hc, hn]

@[simp] theorem sawFx_xfer (st : St) : (xfer st).sawFx = st.sawFx := by
  simp [xfer]

@[simp] theorem sawFx_skipChars (st : St) (n : Nat) :
    (skipChars st n).sawFx = st.sawFx := rfl

theorem sawFx_xfer_t (st : St) (h : st.sawFx = true) : (xfer st).sawFx = true := by
  simpa

theorem sawFx_next_t (st : St) (h : st.sawFx = true) :
    (next st).2.sawFx = true := by simpa

theorem sawFx_skip_t (st : St) (n : Nat) (h : st.sawFx = true) :
    (skipChars st n).sawFx = true := h

theorem cppLoop_step (cfg : Config) (n : Nat) :
    (interp cfg (n + 1)).cppLoop = cppLoopB (interp cfg n) := rfl

theorem processCPPComment_step (cfg : Config) (n : Nat) :
    (interp cfg (n + 1)).processCPPComment = processCPPCommentB (interp cfg n) := rfl

theorem cLoop_step (cfg : Config) (n : Nat) :
    (interp cfg (n + 1)).cLoop = cLoopB (interp cfg n) := rfl

theorem processCComment_step (cfg : Config) (n : Nat) :
    (interp cfg (n + 1)).processCComment = processCCommentB (interp cfg n) := rfl

theorem prefixLoop_step (cfg : Config) (n : Nat) :
    (interp cfg (n + 1)).prefixLoop = prefixLoopB (interp cfg n) := rfl

theorem litLoop_step (cfg : Config) (n : Nat) :
    (interp cfg (n + 1)).litLoop = litLoopB (interp cfg n) := rfl

theorem processLiteral_step (cfg : Config) (n : Nat) :
    (interp cfg (n + 1)).processLiteral = processLiteralB cfg (interp cfg n) := rfl

theorem processStringLiteral_step (cfg : Config) (n : Nat) :
    (interp cfg (n + 1)).processStringLiteral =
      processStringLiteralB (interp cfg n) := rfl

theorem processCharLiteral_step (cfg : Config) (n : Nat) :
    (interp cfg (n + 1)).processCharLiteral =
      processCharLiteralB (interp cfg n) := rfl

theorem processExtractionField_step (cfg : Config) (n : Nat) :
    (interp cfg (n + 1)).processExtractionField =
      processExtractionFieldB (interp cfg n) := rfl

theorem specLoop_step (cfg : Config) (n : Nat) :
    (interp cfg (n + 1)).specLoop = specLoopB (interp cfg n) := rfl

theorem processExpressionField_step (cfg : Config) (n : Nat) :
    (interp cfg (n + 1)).processExpressionField =
      processExpressionFieldB (interp cfg n) := rfl

theorem processExpression_step (cfg : Config) (n : Nat) :
    (interp cfg (n + 1)).processExpression = processExpressionB (interp cfg n) := rfl

theorem processNested_step (cfg : Config) (n : Nat) :
    (interp cfg (n + 1)).processNested = processNestedB (interp cfg n) := rfl

theorem processNestedParenthesis_step (cfg : Config) (n : Nat) :
    (interp cfg (n + 1)).processNestedParenthesis =
      processNestedParenthesisB (interp cfg n) := rfl

theorem npLoop_step (cfg : Config) (n : Nat) :
    (interp cfg (n + 1)).npLoop = npLoopB (interp cfg n) := rfl

theorem mainLoopInner_step (cfg : Config) (n : Nat) :
    (interp cfg (n + 1)).mainLoopInner = mainLoopInnerB (interp cfg n) := rfl

theorem mainLoop_step (cfg : Config) (n : Nat) :
    (interp cfg (n + 1)).mainLoop = mainLoopB (interp cfg n) := rfl

theorem ite_true_of (p : Prop) [Decidable p] (a : Bool) (h : a = true) :
    (if p then a else true) = true := by
  split_ifs <;> simp [h]

/-- The emission phase never clears the ghost flag. -/
theorem processLiteralAfter_sawFx (cfg : Config) (fx : Char)
    (enc lit0 : List Char) (fields : List Field) (st st1 : St)
    (h : processLiteralAfter cfg fx enc lit0 fields st = .ok st1)
    (hs : st.sawFx = true) : st1.sawFx = true := by
  unfold processLiteralAfter at h
  simp only [] at h
  split_ifs at h
  all_goals
    try (rcases he : emitFields cfg (next st).2.lineDirectives fields with e | tl <;>
      rw [he] at h)
  all_goals first
    | exact Except.noConfusion h
    | (injection h with hh; rw [← hh]; exact sawFx_next_t _ hs)

set_option maxHeartbeats 2000000 in
/-- `sawFx` monotonicity: every member function at every fuel preserves a
set ghost flag. -/
theorem monoAll (cfg : Config) : ∀ fuel, MonoAll cfg fuel := by
  intro fuel
  induction fuel with
  | zero =>
    refine ⟨?_, ?_, ?_, ?_, ?_, ?_, ?_, ?_, ?_, ?_, ?_, ?_, ?_, ?_, ?_, ?_, ?_, ?_⟩ <;>
      (intros; simp_all [interp, interpBase])
  | succ n ih =>
    obtain ⟨m1, m2, m3, m4, m5, m6, m7, m8, m9, m10, m11, m12, m13, m14,
      m15, m16, m17, m18⟩ := ih
    refine ⟨?_, ?_, ?_, ?_, ?_, ?_, ?_, ?_, ?_, ?_, ?_, ?_, ?_, ?_, ?_, ?_, ?_, ?_⟩
    · intro b st st1 h hs
      rw [cppLoop_step] at h
      unfold cppLoopB at h
      split_ifs at h
      all_goals first
        | exact Except.noConfusion h
        | (injection h with hh; rw [← hh]; exact hs)
        | exact m1 _ _ _ h (sawFx_xfer_t _ hs)
    · intro st st1 h hs
      rw [processCPPComment_step] at h
      unfold processCPPCommentB at h
      exact m1 _ _ _ h (sawFx_xfer_t _ (sawFx_xfer_t _ hs))
    · intro st st1 h hs
      rw [cLoop_step] at h
      unfold cLoopB at h
      split_ifs at h
      all_goals first
        | exact Except.noConfusion h
        | (injection h with hh; rw [← hh]; exact sawFx_xfer_t _ (sawFx_xfer_t _ hs))
        | exact m3 _ _ h (sawFx_xfer_t _ hs)
    · intro st st1 h hs
      rw [processCComment_step] at h
      unfold processCCommentB at h
      exact m3 _ _ h (sawFx_xfer_t _ (sawFx_xfer_t _ hs))
    · intro pfx st r h hs
      rw [prefixLoop_step] at h
      unfold prefixLoopB at h
      simp only [] at h
      split_ifs at h
      all_goals first
        | exact Except.noConfusion h
        | (injection h with hh; rw [← hh]; exact hs)
        | exact m5 _ _ _ h (sawFx_next_t _ hs)
    · intro raw fx pfx t lit fields b st r h hs
      rw [litLoop_step] at h
      unfold litLoopB at h
      have hstage : ∀ b2 r2,
          litLoopStage2 (interp cfg n) raw fx pfx t lit fields b2 st = .ok r2 →
          r2.2.sawFx = true := by
        intro b2 r2 h2
        unfold litLoopStage2 litLoopBottom at h2
        simp only [] at h2
        split_ifs at h2
        · rcases hx : (interp cfg n).processExtractionField lit fields (next st).2 with
            e | ⟨rr, stx⟩ <;> rw [hx] at h2
          · exact absurd h2 (by simp)
          · simp only [] at h2
            exact m6 _ _ _ _ _ _ _ _ _ h2
              (sawFx_next_t _ (m10 _ _ _ _ hx (sawFx_next_t _ hs)))
        all_goals first
          | exact Except.noConfusion h2
          | exact m6 _ _ _ _ _ _ _ _ _ h2 (sawFx_next_t _ (sawFx_next_t _ hs))
          | exact m6 _ _ _ _ _ _ _ _ _ h2 (sawFx_next_t _ hs)
      split_ifs at h
      all_goals first
        | exact Except.noConfusion h
        | (injection h with hh; rw [← hh]; exact hs)
        | (injection h with hh; rw [← hh]; exact sawFx_skip_t _ _ (sawFx_next_t _ hs))
        | exact hstage _ _ h
    · intro raw fx enc t st st1 h hs
      rw [processLiteral_step] at h
      unfold processLiteralB at h
      split_ifs at h with hraw
      · subst hraw
        simp only [] at h
        rcases hx : (interp cfg n).prefixLoop [] (next st).2 with e | ⟨pfx, stx⟩ <;>
          rw [hx] at h
        · exact absurd h (by simp)
        · simp only [] at h
          rcases hy : (interp cfg n).litLoop true fx pfx t
              ('R' :: (next st).1 :: (pfx ++ [(next stx).1])) [] false (next stx).2 with
            e | ⟨rr, sty⟩ <;> rw [hy] at h
          · exact absurd h (by simp)
          · exact processLiteralAfter_sawFx cfg fx enc rr.1 rr.2 sty st1 h
              (m6 _ _ _ _ _ _ _ _ _ hy
                (sawFx_next_t _ (m5 _ _ _ hx (sawFx_next_t _ hs))))
      · simp only [] at h
        rcases hy : (interp cfg n).litLoop raw fx processLiteralB.pfx0 t
            [(next st).1] [] false (next st).2 with e | ⟨rr, sty⟩ <;>
          rw [hy] at h
        · exact absurd h (by simp)
        · exact processLiteralAfter_sawFx cfg fx enc rr.1 rr.2 sty st1 h
            (m6 _ _ _ _ _ _ _ _ _ hy (sawFx_next_t _ hs))
    · intro st st1 h hs
      rw [processStringLiteral_step] at h
      unfold processStringLiteralB at h
      exact m7 _ _ _ _ _ _ h (ite_true_of _ _ hs)
    · intro st st1 h hs
      rw [processCharLiteral_step] at h
      unfold processCharLiteralB at h
      exact m7 _ _ _ _ _ _ h hs
    · intro lit fields st r h hs
      rw [processExtractionField_step] at h
      unfold processExtractionFieldB pefFinish at h
      rcases hx : (interp cfg n).processExpressionField st with e | ⟨f, stx⟩ <;>
        rw [hx] at h
      · exact absurd h (by simp)
      · have hsx : stx.sawFx = true := m12 _ _ hx hs
        simp only [] at h
        split_ifs at h
        all_goals first
          | exact Except.noConfusion h
          | (injection h with hh; rw [← hh]; exact hsx)
          | exact m11 _ _ _ _ h (sawFx_next_t _ hsx)
    · intro lit fields st r h hs
      rw [specLoop_step] at h
      unfold specLoopB at h
      simp only [] at h
      split_ifs at h
      · injection h with hh; rw [← hh]; exact hs
      · rcases hx : (interp cfg n).processExpressionField (next st).2 with
          e | ⟨f, stx⟩ <;> rw [hx] at h
        · exact absurd h (by simp)
        · simp only [] at h
          split_ifs at h
          all_goals first
            | exact Except.noConfusion h
            | exact m11 _ _ _ _ h (sawFx_next_t _ (m12 _ _ hx (sawFx_next_t _ hs)))
      · exact m11 _ _ _ _ h (sawFx_next_t _ hs)
    · intro st r h hs
      rw [processExpressionField_step] at h
      unfold processExpressionFieldB at h
      rcases hx : (interp cfg n).processExpression { st with outLines := [] } with
        e | stx <;> rw [hx] at h
      · exact absurd h (by simp)
      · injection h with hh
        rw [← hh]
        exact m13 _ stx hx hs
    · intro st st1 h hs
      rw [processExpression_step] at h
      unfold processExpressionB at h
      rcases hx : (interp cfg n).processNested st with e | stx <;> rw [hx] at h
      · exact absurd h (by simp)
      · have hsx : stx.sawFx = true := m14 _ _ hx hs
        simp only [] at h
        split_ifs at h
        all_goals try (rcases hy : (interp cfg n).processExpression (xfer stx) with
          e2 | sty <;> rw [hy] at h)
        all_goals try (simp only [] at h)
        all_goals try (split_ifs at h)
        all_goals first
          | exact Except.noConfusion h
          | (injection h with hh; rw [← hh]; exact hsx)
          | (injection h with hh; rw [← hh]; exact m13 _ _ hy (sawFx_xfer_t _ hsx))
          | exact m13 _ _ h (sawFx_xfer_t _ hsx)
          | exact m13 _ _ h (sawFx_xfer_t _ (sawFx_xfer_t _ hsx))
          | exact m13 _ _ h (sawFx_xfer_t _ (m13 _ _ hy (sawFx_xfer_t _ hsx)))
    · intro st st1 h hs
      rw [processNested_step] at h
      unfold processNestedB at h
      split_ifs at h
      all_goals try (rcases hx : (interp cfg n).processNestedParenthesis st with
        e | stx <;> rw [hx] at h)
      all_goals try (rcases hx : (interp cfg n).processStringLiteral st with
        e | stx <;> rw [hx] at h)
      all_goals try (rcases hx : (interp cfg n).processCharLiteral st with
        e | stx <;> rw [hx] at h)
      all_goals try (rcases hx : (interp cfg n).processCComment st with
        e | stx <;> rw [hx] at h)
      all_goals try (rcases hx : (interp cfg n).processCPPComment st with
        e | stx <;> rw [hx] at h)
      all_goals try (simp only [] at h)
      all_goals try (split_ifs at h)
      all_goals first
        | exact Except.noConfusion h
        | (injection h with hh; rw [← hh]; exact hs)
        | exact m14 _ _ h hs
        | exact m14 _ _ h (m15 _ _ hx hs)
        | exact m14 _ _ h (m8 _ _ hx hs)
        | exact m14 _ _ h (m9 _ _ hx hs)
        | exact m14 _ _ h (m4 _ _ hx hs)
        | exact m14 _ _ h (m2 _ _ hx hs)
    · intro st st1 h hs
      rw [processNestedParenthesis_step] at h
      unfold processNestedParenthesisB at h
      simp only [] at h
      exact m16 _ _ _ _ h (sawFx_xfer_t _ hs)
    · intro o c st st1 h hs
      rw [npLoop_step] at h
      unfold npLoopB at h
      rcases hx : (interp cfg n).processNested st with e | stx <;> rw [hx] at h
      · exact absurd h (by simp)
      · have hsx : stx.sawFx = true := m14 _ _ hx hs
        simp only [] at h
        split_ifs at h
        all_goals first
          | exact Except.noConfusion h
          | (injection h with hh; rw [← hh]; exact sawFx_xfer_t _ hsx)
          | exact m16 _ _ _ _ h (sawFx_xfer_t _ hsx)
    · intro b1 b2 st r h hs
      rw [mainLoopInner_step] at h
      unfold mainLoopInnerB at h
      simp only [] at h
      split_ifs at h
      all_goals try (rcases hx : (interp cfg n).processStringLiteral st with
        e | stx <;> rw [hx] at h)
      all_goals try (rcases hx : (interp cfg n).processCharLiteral st with
        e | stx <;> rw [hx] at h)
      all_goals try (rcases hx : (interp cfg n).processCComment st with
        e | stx <;> rw [hx] at h)
      all_goals try (rcases hx : (interp cfg n).processCPPComment st with
        e | stx <;> rw [hx] at h)
      all_goals try (simp only [] at h)
      all_goals first
        | exact Except.noConfusion h
        | (injection h with hh; rw [← hh]; exact hs)
        | exact m17 _ _ _ _ h (sawFx_xfer_t _ hs)
        | exact m17 _ _ _ _ h (m8 _ _ hx hs)
        | exact m17 _ _ _ _ h (m9 _ _ hx hs)
        | exact m17 _ _ _ _ h (m4 _ _ hx hs)
        | exact m17 _ _ _ _ h (m2 _ _ hx hs)
    · intro s st st1 h hs
      rw [mainLoop_step] at h
      unfold mainLoopB at h
      split_ifs at h
      · injection h with hh; rw [← hh]; exact hs
      · rcases hx : (interp cfg n).mainLoopInner false true st with e | rr <;>
          rw [hx] at h
        · exact absurd h (by simp)
        · have hsx : rr.2.2.sawFx = true := m17 _ _ _ _ hx hs
          simp only [] at h
          split_ifs at h
          all_goals first
            | exact m18 _ _ _ h hsx
            | exact m18 _ _ _ h (sawFx_next_t _ hsx)

/-! ## Verbatim-transcription helper lemmas -/

theorem mem_dropLast_drop {x : Char} : ∀ (xs : List Char) (k : Nat),
    x ∈ (xs.drop k).dropLast → x ∈ xs.dropLast := by
  intro xs
  induction xs with
  | nil => intro k h; simp at h
  | cons c cs ih =>
    intro k h
    cases k with
    | zero => exact h
    | succ k =>
      rw [List.drop_succ_cons] at h
      have hx : x ∈ cs.dropLast := ih k h
      rcases hcs : cs with _ | ⟨y, ys⟩
      · rw [hcs] at hx; simp at hx
      · rw [hcs] at hx
        rw [List.dropLast_cons₂]
        exact List.mem_cons_of_mem c hx

theorem getLast?_drop_of_lt : ∀ (xs : List Char) (k : Nat), k < xs.length →
    (xs.drop k).getLast? = xs.getLast? := by
  intro xs
  induction xs with
  | nil => intro k h; simp at h
  | cons c cs ih =>
    intro k h
    cases k with
    | zero => rfl
    | succ k =>
      have hk : k < cs.length := by simpa using h
      rw [List.drop_succ_cons, ih k hk]
      rcases hcs : cs with _ | ⟨y, ys⟩
      · rw [hcs] at hk; simp at hk
      · rw [List.getLast?_cons_cons]

theorem headD_drop : ∀ (xs : List Char) (k : Nat), k < xs.length →
    (xs.drop k).headD '\x00' = xs.getD k '\x00' := by
  intro xs
  induction xs with
  | nil => intro k h; simp at h
  | cons c cs ih =>
    intro k h
    cases k with
    | zero => simp
    | succ k =>
      rw [List.drop_succ_cons, List.getD_cons_succ]
      exact ih k (by simpa using h)

theorem take_eq_of_getD : ∀ (pfx cs : List Char), pfx.length ≤ cs.length →
    (∀ i, i < pfx.length → cs.getD i '\x00' = pfx.getD i ' ') →
    cs.take pfx.length = pfx := by
  intro pfx
  induction pfx with
  | nil => intro cs _ _; simp
  | cons p ps ih =>
    intro cs hlen hget
    rcases cs with _ | ⟨c, cs1⟩
    · simp at hlen
    · have h0 : c = p := by simpa using hget 0 (by simp)
      have ht : cs1.take ps.length = ps := by
        refine ih cs1 (by simpa using hlen) ?_
        intro i hi
        simpa using hget (i + 1) (by simpa using Nat.succ_lt_succ hi)
      simp [h0, ht]

theorem length_lt_of_getD (xs : List Char) (k : Nat) (d : Char)
    (h : xs.getD k d ≠ d) : k < xs.length := by
  by_contra hk
  rw [List.getD_eq_default xs d (by omega)] at h
  exact h rfl

theorem verb_refl (st : St) (hWF : WF st) :
    WF st ∧ ∃ d, rem st = d ++ rem st ∧ st.outLines = st.outLines ++ d ∧
      st.out = st.out ∧ st.sawFx = st.sawFx :=
  ⟨hWF, [], rfl, by simp, rfl, rfl⟩

theorem verb_comp (st st2 st1 : St)
    (h1 : WF st2 ∧ ∃ d, rem st = d ++ rem st2 ∧
      st2.outLines = st.outLines ++ d ∧ st2.out = st.out ∧
      st2.sawFx = st.sawFx)
    (h2 : WF st1 ∧ ∃ d, rem st2 = d ++ rem st1 ∧
      st1.outLines = st2.outLines ++ d ∧ st1.out = st2.out ∧
      st1.sawFx = st2.sawFx) :
    WF st1 ∧ ∃ d, rem st = d ++ rem st1 ∧ st1.outLines = st.outLines ++ d ∧
      st1.out = st.out ∧ st1.sawFx = st.sawFx := by
  obtain ⟨_, d1, e1, o1, u1, s1⟩ := h1
  obtain ⟨w2, d2, e2, o2, u2, s2⟩ := h2
  refine ⟨w2, d1 ++ d2, ?_, ?_, ?_, ?_⟩
  · rw [e1, e2, List.append_assoc]
  · rw [o2, o1, List.append_assoc]
  · rw [u2, u1]
  · rw [s2, s1]

theorem verb_xfer (st : St) (hWF : WF st) (hne : peekC st ≠ '\x00') :
    WF (xfer st) ∧ ∃ d, rem st = d ++ rem (xfer st) ∧
      (xfer st).outLines = st.outLines ++ d ∧ (xfer st).out = st.out ∧
      (xfer st).sawFx = st.sawFx := by
  obtain ⟨h1, h2, h3, h4, h5, _⟩ := xfer_verb st hWF hne
  exact ⟨h2, [peekC st], by rw [h1]; rfl, h3, h4, h5⟩

theorem peekC_next (st : St) (hne : peekC st ≠ '\x00')
    (hnl : peekC st ≠ '\n') : peekC (next st).2 = peekK st 1 := by
  rcases hc : st.cur with _ | ⟨c, cs⟩
  · exact absurd (by simp [peekC, hc]) hne
  · have hcn : c ≠ '\n' := by simpa [peekC, hc] using hnl
    simp only [next, hc, if_neg hcn]
    rcases cs with _ | ⟨y, ys⟩ <;> simp [peekC, peekK, hc]

theorem peekC_xfer (st : St) : peekC (xfer st) = peekC (next st).2 := rfl

theorem rem_skip (st : St) (k : Nat) :
    rem (skipChars st k) = st.cur.drop k ++ st.rest := rfl

theorem WF_skip (st : St) (k : Nat) (hWF : WF st)
    (hk : st.cur.getD k '\x00' ≠ '\x00') : WF (skipChars st k) := by
  have hlen : k < st.cur.length := length_lt_of_getD _ _ _ hk
  refine ⟨?_, hWF.2.1, ?_, ?_, ?_⟩
  · show '\x00' ∉ st.cur.drop k
    intro hm; exact hWF.1 (List.mem_of_mem_drop hm)
  · show ∀ c ∈ (st.cur.drop k).dropLast, c ≠ '\n'
    intro c hc
    exact hWF.2.2.1 c (mem_dropLast_drop st.cur k hc)
  · show st.eof = true → st.rest = [] ∧ '\n' ∉ st.cur.drop k
    intro he
    exact ⟨(hWF.2.2.2.1 he).1,
      fun hm => (hWF.2.2.2.1 he).2 (List.mem_of_mem_drop hm)⟩
  · show st.eof = false → (st.cur.drop k).getLast? = some '\n'
    intro he
    rw [getLast?_drop_of_lt st.cur k hlen]
    exact hWF.2.2.2.2 he

theorem take_getD_last : ∀ (xs : List Char), 0 < xs.length →
    xs.take (xs.length - 1) ++ [xs.getD (xs.length - 1) ' '] = xs := by
  intro xs
  induction xs with
  | nil => intro hx; simp at hx
  | cons c cs ih =>
    intro hx
    rcases hcs : cs with _ | ⟨y, ys⟩
    · simp [hcs]
    · rw [← hcs]
      have h1 : 0 < cs.length := by rw [hcs]; simp
      have h2 : (c :: cs).length - 1 = cs.length - 1 + 1 := by
        simp only [List.length_cons]
        omega
      rw [h2, List.take_succ_cons, List.getD_cons_succ, List.cons_append,
        ih h1]

theorem lit_step (st : St) (r : (List Char × List Field) × St)
    (lit : List Char) (fields : List Field) (t : Char)
    (hWF : WF st) (hne : peekC st ≠ '\x00')
    (h : WF r.2 ∧ ∃ d, rem (next st).2 = d ++ rem r.2 ∧
      r.1.1 = (lit ++ [(next st).1]) ++ d ∧ r.1.2 = fields ∧
      r.2.outLines = (next st).2.outLines ∧ r.2.out = (next st).2.out ∧
      r.2.sawFx = (next st).2.sawFx ∧ peekC r.2 = t) :
    WF r.2 ∧ ∃ d, rem st = d ++ rem r.2 ∧ r.1.1 = lit ++ d ∧
      r.1.2 = fields ∧ r.2.outLines = st.outLines ∧ r.2.out = st.out ∧
      r.2.sawFx = st.sawFx ∧ peekC r.2 = t := by
  have hcur : st.cur ≠ [] := fun hc => hne (by simp [peekC, hc])
  have hfst := next_fst_of_ne st hcur
  obtain ⟨hrem, _, hOL, hOut, hSaw, _⟩ := next_verb st hWF hne
  obtain ⟨w, d, e1, e2, e3, e4, e5, e6, e7⟩ := h
  refine ⟨w, peekC st :: d, ?_, ?_, e3, ?_, ?_, ?_, e7⟩
  · rw [hrem, e1]; rfl
  · rw [e2, hfst, List.append_assoc]
    rfl
  · rw [e4, hOL]
  · rw [e5, hOut]
  · rw [e6, hSaw]

theorem verb_comp_mli (st stx : St) (r : Bool × Bool × St)
    (h1 : WF stx ∧ ∃ d, rem st = d ++ rem stx ∧
      stx.outLines = st.outLines ++ d ∧ stx.out = st.out ∧
      stx.sawFx = st.sawFx)
    (h2 : WF r.2.2 ∧ ∃ d, rem stx = d ++ rem r.2.2 ∧
      r.2.2.outLines = stx.outLines ++ d ∧ r.2.2.out = stx.out ∧
      r.2.2.sawFx = stx.sawFx ∧
      (peekC r.2.2 = '\n' ∨ peekC r.2.2 = '\x00'))  :
    WF r.2.2 ∧ ∃ d, rem st = d ++ rem r.2.2 ∧
      r.2.2.outLines = st.outLines ++ d ∧ r.2.2.out = st.out ∧
      r.2.2.sawFx = st.sawFx ∧
      (peekC r.2.2 = '\n' ∨ peekC r.2.2 = '\x00') := by
  obtain ⟨_, d1, a1, a2, a3, a4⟩ := h1
  obtain ⟨w, d2, c1, c2, c3, c4, c5⟩ := h2
  refine ⟨w, d1 ++ d2, ?_, ?_, ?_, ?_, c5⟩
  · rw [a1, c1, List.append_assoc]
  · rw [c2, a2, List.append_assoc]
  · rw [c3, a3]
  · rw [c4, a4]

theorem verbAll (cfg : Config) : ∀ fuel, VerbAll cfg fuel := by
  intro fuel
  induction fuel with
  | zero =>
    refine ⟨?_, ?_, ?_, ?_, ?_, ?_, ?_, ?_, ?_, ?_, ?_⟩ <;>
      (intros; simp_all [interp, interpBase])
  | succ n ih =>
    obtain ⟨v1, v2, v3, v4, v5, v6, v7, v8, v9, v10, v11⟩ := ih
    obtain ⟨m1, m2, m3, m4, m5, m6, m7, m8, m9, m10, m11, m12, m13, m14,
      m15, m16, m17, m18⟩ := monoAll cfg n
    refine ⟨?_, ?_, ?_, ?_, ?_, ?_, ?_, ?_, ?_, ?_, ?_⟩
    · intro b st st1 hWF h
      rw [cppLoop_step] at h
      unfold cppLoopB at h
      by_cases h1 : peekC st = '\n' ∧ b = false
      · rw [if_pos h1] at h
        injection h with hh
        rw [← hh]; exact verb_refl st hWF
      · rw [if_neg h1] at h
        by_cases h2 : peekC st = '\x00'
        · rw [if_pos h2] at h
          by_cases h3 : b = true
          · rw [if_pos h3] at h; exact Except.noConfusion h
          · rw [if_neg h3] at h
            injection h with hh
            rw [← hh]; exact verb_refl st hWF
        · rw [if_neg h2] at h
          simp only [] at h
          exact verb_comp st (xfer st) st1 (verb_xfer st hWF h2)
            (v1 _ _ _ (verb_xfer st hWF h2).1 h)
    · intro st st1 hWF hp hk h
      rw [processCPPComment_step] at h
      unfold processCPPCommentB at h
      have hne : peekC st ≠ '\x00' := by rw [hp]; decide
      have hnl : peekC st ≠ '\n' := by rw [hp]; decide
      have h2 : peekC (xfer st) = '/' := by
        rw [peekC_xfer, peekC_next st hne hnl, hk]
      have hx1 := verb_xfer st hWF hne
      have hne2 : peekC (xfer st) ≠ '\x00' := by rw [h2]; decide
      have hx2 := verb_xfer (xfer st) hx1.1 hne2
      exact verb_comp st (xfer st) st1 hx1
        (verb_comp (xfer st) (xfer (xfer st)) st1 hx2 (v1 _ _ _ hx2.1 h))
    · intro st st1 hWF h
      rw [cLoop_step] at h
      unfold cLoopB at h
      by_cases h1 : peekC st = '*' ∧ peekK st 1 = '/'
      · rw [if_pos h1] at h
        injection h with hh
        rw [← hh]
        have hne : peekC st ≠ '\x00' := by rw [h1.1]; decide
        have hnl : peekC st ≠ '\n' := by rw [h1.1]; decide
        have hx1 := verb_xfer st hWF hne
        have h2 : peekC (xfer st) = '/' := by
          rw [peekC_xfer, peekC_next st hne hnl, h1.2]
        have hne2 : peekC (xfer st) ≠ '\x00' := by rw [h2]; decide
        exact verb_comp st (xfer st) _ hx1 (verb_xfer (xfer st) hx1.1 hne2)
      · rw [if_neg h1] at h
        by_cases h2 : peekC st = '\x00'
        · rw [if_pos h2] at h; exact Except.noConfusion h
        · rw [if_neg h2] at h
          exact verb_comp st (xfer st) st1 (verb_xfer st hWF h2)
            (v3 _ _ (verb_xfer st hWF h2).1 h)
    · intro st st1 hWF hp hk h
      rw [processCComment_step] at h
      unfold processCCommentB at h
      have hne : peekC st ≠ '\x00' := by rw [hp]; decide
      have hnl : peekC st ≠ '\n' := by rw [hp]; decide
      have h2 : peekC (xfer st) = '*' := by
        rw [peekC_xfer, peekC_next st hne hnl, hk]
      have hx1 := verb_xfer st hWF hne
      have hne2 : peekC (xfer st) ≠ '\x00' := by rw [h2]; decide
      have hx2 := verb_xfer (xfer st) hx1.1 hne2
      exact verb_comp st (xfer st) st1 hx1
        (verb_comp (xfer st) (xfer (xfer st)) st1 hx2 (v3 _ _ hx2.1 h))
    · intro pfx st r hWF h
      rw [prefixLoop_step] at h
      unfold prefixLoopB at h
      by_cases h1 : peekC st = '('
      · rw [if_pos h1] at h
        injection h with hh
        rw [← hh]
        exact ⟨hWF, [], rfl, by simp, rfl, rfl, rfl, by simp, h1⟩
      · rw [if_neg h1] at h
        by_cases h2 : peekC st = '\x00' ∨ peekC st = '\n'
        · rw [if_pos h2] at h; exact Except.noConfusion h
        · rw [if_neg h2] at h
          simp only [] at h
          push_neg at h2
          have hcur : st.cur ≠ [] := fun hc => h2.1 (by simp [peekC, hc])
          have hfst := next_fst_of_ne st hcur
          obtain ⟨hrem, hWF2, hOL, hOut, hSaw, _⟩ := next_verb st hWF h2.1
          obtain ⟨w, d, e1, e2, e3, e4, e5, e6, e7⟩ := v5 _ _ _ hWF2 h
          refine ⟨w, peekC st :: d, ?_, ?_, ?_, ?_, ?_, ?_, e7⟩
          · rw [hrem, e1]; rfl
          · rw [e2, hfst, List.append_assoc]
            rfl
          · rw [e3, hOL]
          · rw [e4, hOut]
          · rw [e5, hSaw]
          · intro hm
            rcases List.mem_cons.mp hm with hm | hm
            · exact h2.1 hm.symm
            · exact e6 hm
    · intro raw pfx t lit fields b st r hWF hpfx ht h
      rw [litLoop_step] at h
      unfold litLoopB at h
      have hstage : ∀ (lit1 : List Char) (b1 : Bool) (st0 : St), WF st0 →
          peekC st0 ≠ '\x00' →
          litLoopStage2 (interp cfg n) raw '\x00' pfx t lit1 fields b1 st0 =
            .ok r →
          WF r.2 ∧ ∃ d, rem st0 = d ++ rem r.2 ∧ r.1.1 = lit1 ++ d ∧
            r.1.2 = fields ∧ r.2.outLines = st0.outLines ∧
            r.2.out = st0.out ∧ r.2.sawFx = st0.sawFx ∧ peekC r.2 = t := by
        intro lit1 b1 st0 hWF0 hne0 h0
        unfold litLoopStage2 litLoopBottom at h0
        rw [if_neg (by simp), if_neg (by simp)] at h0
        have hWF2 := (next_verb st0 hWF0 hne0).2.1
        exact lit_step st0 r lit1 fields t hWF0 hne0
          (v6 _ _ _ _ _ _ _ _ hWF2 hpfx ht h0)
      by_cases hraw : raw = true
      · rw [if_pos hraw] at h
        by_cases h1 : peekC st = '\x00'
        · rw [if_pos h1] at h; exact Except.noConfusion h
        · rw [if_neg h1] at h
          by_cases h2 : peekC st = ')' ∧ rawEndsHere st pfx t
          · rw [if_pos h2] at h
            simp only [] at h
            injection h with hh
            rcases hc : st.cur with _ | ⟨c0, cs⟩
            · exact absurd ((peekC_nul st hWF).mpr hc) h1
            · have hc0 : c0 = ')' := by
                have hp := h2.1
                simp [peekC, hc] at hp
                exact hp
              subst hc0
              have hnext : next st =
                  (')', { st with cur := cs, linePos := st.linePos + 1 }) := by
                simp [next, hc]
              have hcs_get : ∀ i, i < pfx.length →
                  cs.getD i '\x00' = pfx.getD i ' ' := by
                intro i hi
                have := h2.2.1 i hi
                simpa [peekK, hc] using this
              have hterm : cs.getD pfx.length '\x00' = t := by
                have := h2.2.2
                simpa [peekK, hc] using this
              have hlen : pfx.length < cs.length :=
                length_lt_of_getD cs pfx.length '\x00' (by rw [hterm]; exact ht)
              have htake : cs.take pfx.length = pfx :=
                take_eq_of_getD pfx cs (Nat.le_of_lt hlen) hcs_get
              have hsplit : cs = pfx ++ cs.drop pfx.length := by
                conv_lhs => rw [← List.take_append_drop pfx.length cs]
                rw [htake]
              rw [hnext] at hh
              rw [← hh]
              have hWFn : WF { st with cur := cs, linePos := st.linePos + 1 } :=
                WF_tail st ')' cs hc hWF (by decide) _
              refine ⟨?_, ')' :: pfx, ?_, ?_, rfl, rfl, rfl, rfl, ?_⟩
              · exact WF_skip _ _ hWFn (by show cs.getD pfx.length _ ≠ _
                                           rw [hterm]; exact ht)
              · show rem st = (')' :: pfx) ++ (cs.drop pfx.length ++ st.rest)
                rw [rem, hc]
                conv_lhs => rw [hsplit]
                simp [List.append_assoc]
              · show lit ++ [')'] ++ pfx = lit ++ (')' :: pfx)
                rw [List.append_assoc]
                rfl
              · show peekC (skipChars { st with
                    cur := cs, linePos := st.linePos + 1 } pfx.length) = t
                show (cs.drop pfx.length).headD '\x00' = t
                rw [headD_drop cs pfx.length hlen, hterm]
          · rw [if_neg h2] at h
            exact hstage lit b st hWF h1 h
      · rw [if_neg hraw] at h
        by_cases h1 : peekC st = '\\'
        · rw [if_pos h1] at h
          exact hstage lit (!b) st hWF (by rw [h1]; decide) h
        · rw [if_neg h1] at h
          by_cases h2 : peekC st = t
          · rw [if_pos h2] at h
            by_cases h3 : b = true
            · rw [if_pos h3] at h
              exact hstage lit false st hWF (by rw [h2]; exact ht) h
            · rw [if_neg h3] at h
              injection h with hh
              rw [← hh]
              exact ⟨hWF, [], rfl, by simp, rfl, rfl, rfl, rfl, h2⟩
          · rw [if_neg h2] at h
            by_cases h4 : peekC st = '\x00'
            · rw [if_pos h4] at h; exact Except.noConfusion h
            · rw [if_neg h4] at h
              by_cases h5 : b = false ∧ peekC st = '\n'
              · rw [if_pos h5] at h; exact Except.noConfusion h
              · rw [if_neg h5] at h
                by_cases h6 : peekC st = '\n' ∨ isspaceC (peekC st) = false
                · rw [if_pos h6] at h
                  exact hstage lit false st hWF h4 h
                · rw [if_neg h6] at h
                  exact hstage lit b st hWF h4 h
    · intro raw enc t st st1 hWF ht0 htn hpk h
      rw [processLiteral_step] at h
      unfold processLiteralB at h
      have hne : peekC st ≠ '\x00' := by rw [hpk]; exact ht0
      have hcur : st.cur ≠ [] := fun hc => hne (by simp [peekC, hc])
      have hfst0 : (next st).1 = t := by rw [next_fst_of_ne st hcur, hpk]
      obtain ⟨hrem0, hWF0, hOL0, hOut0, hSaw0, _⟩ := next_verb st hWF hne
      by_cases hraw : raw = true
      · rw [if_pos hraw] at h
        simp only [] at h
        rcases hx : (interp cfg n).prefixLoop [] (next st).2 with e | ⟨pfx, stp⟩ <;>
          rw [hx] at h
        · exact Except.noConfusion h
        · simp only [] at h
          obtain ⟨wp0, dp, p1, p2, p3, p4, p5, p6, p7⟩ := v5 _ _ _ hWF0 hx
          have wp : WF stp := wp0
          have p1a : rem (next st).2 = dp ++ rem stp := p1
          have p2a : pfx = dp := by simpa using p2
          have p3a : stp.outLines = (next st).2.outLines := p3
          have p4a : stp.out = (next st).2.out := p4
          have p5a : stp.sawFx = (next st).2.sawFx := p5
          have p7a : peekC stp = '(' := p7
          have hnep : peekC stp ≠ '\x00' := by rw [p7a]; decide
          have hcurp : stp.cur ≠ [] := fun hc => hnep (by simp [peekC, hc])
          have hfst1 : (next stp).1 = '(' := by
            rw [next_fst_of_ne stp hcurp, p7a]
          obtain ⟨hrem1, hWF1, hOL1, hOut1, hSaw1, _⟩ := next_verb stp wp hnep
          rcases hy : (interp cfg n).litLoop raw '\x00' pfx t
              ('R' :: (next st).1 :: (pfx ++ [(next stp).1])) [] false
              (next stp).2 with e | ⟨rr, st2⟩ <;> rw [hy] at h
          · exact Except.noConfusion h
          · simp only [] at h
            have hpfx0 : '\x00' ∉ pfx := by rw [p2a]; exact p6
            obtain ⟨w2a, dl, q1, q2, q3, q4, q5, q6, q7⟩ :=
              v6 _ _ _ _ _ _ _ _ hWF1 hpfx0 ht0 hy
            have w2 : WF st2 := w2a
            have q1a : rem (next stp).2 = dl ++ rem st2 := q1
            have q2a : rr.1 =
                ('R' :: (next st).1 :: (pfx ++ [(next stp).1])) ++ dl := q2
            have q4a : st2.outLines = (next stp).2.outLines := q4
            have q5a : st2.out = (next stp).2.out := q5
            have q6a : st2.sawFx = (next stp).2.sawFx := q6
            have q7a : peekC st2 = t := q7
            have hne2 : peekC st2 ≠ '\x00' := by rw [q7a]; exact ht0
            have hcur2 : st2.cur ≠ [] := fun hc => hne2 (by simp [peekC, hc])
            have hfst2 : (next st2).1 = t := by
              rw [next_fst_of_ne st2 hcur2, q7a]
            obtain ⟨hrem2, hWF2, hOL2, hOut2, hSaw2, _⟩ :=
              next_verb st2 w2 hne2
            unfold processLiteralAfter at h
            simp only [] at h
            rw [if_neg (by simp)] at h
            injection h with hh
            refine ⟨?_, t :: (dp ++ '(' :: (dl ++ [t])), ?_, ?_, ?_, ?_⟩
            · rw [← hh]; exact hWF2
            · rw [← hh]
              have hrfl : rem { (next st2).2 with
                  outLines := (next st2).2.outLines ++
                    (rr.1 ++ [(next st2).1]) } = rem (next st2).2 := rfl
              rw [hrfl, hrem0, hpk, p1a, hrem1, p7a, q1a, hrem2, q7a]
              simp [List.append_assoc]
            · rw [← hh]
              show (next st2).2.outLines ++ (rr.1 ++ [(next st2).1]) =
                st.outLines ++ _
              rw [if_pos hraw, hOL2, q4a, hOL1, p3a, hOL0, q2a, hfst0, hfst1,
                hfst2, p2a]
              simp [List.append_assoc]
            · rw [← hh]
              show (next st2).2.out = st.out
              rw [hOut2, q5a, hOut1, p4a, hOut0]
            · rw [← hh]
              show (next st2).2.sawFx = st.sawFx
              rw [hSaw2, q6a, hSaw1, p5a, hSaw0]
      · rw [if_neg hraw] at h
        simp only [] at h
        rcases hy : (interp cfg n).litLoop raw '\x00' processLiteralB.pfx0 t
            [(next st).1] [] false (next st).2 with e | ⟨rr, st2⟩ <;>
          rw [hy] at h
        · exact Except.noConfusion h
        · simp only [] at h
          have hpfx0 : '\x00' ∉ processLiteralB.pfx0 := by
            simp [processLiteralB.pfx0]
          obtain ⟨w2a, dl, q1, q2, q3, q4, q5, q6, q7⟩ :=
            v6 _ _ _ _ _ _ _ _ hWF0 hpfx0 ht0 hy
          have w2 : WF st2 := w2a
          have q1a : rem (next st).2 = dl ++ rem st2 := q1
          have q2a : rr.1 = [(next st).1] ++ dl := q2
          have q4a : st2.outLines = (next st).2.outLines := q4
          have q5a : st2.out = (next st).2.out := q5
          have q6a : st2.sawFx = (next st).2.sawFx := q6
          have q7a : peekC st2 = t := q7
          have hne2 : peekC st2 ≠ '\x00' := by rw [q7a]; exact ht0
          have hcur2 : st2.cur ≠ [] := fun hc => hne2 (by simp [peekC, hc])
          have hfst2 : (next st2).1 = t := by
            rw [next_fst_of_ne st2 hcur2, q7a]
          obtain ⟨hrem2, hWF2, hOL2, hOut2, hSaw2, _⟩ := next_verb st2 w2 hne2
          unfold processLiteralAfter at h
          simp only [] at h
          rw [if_neg (by simp)] at h
          injection h with hh
          refine ⟨?_, t :: (dl ++ [t]), ?_, ?_, ?_, ?_⟩
          · rw [← hh]; exact hWF2
          · rw [← hh]
            have hrfl : rem { (next st2).2 with
                outLines := (next st2).2.outLines ++
                  (rr.1 ++ [(next st2).1]) } = rem (next st2).2 := rfl
            rw [hrfl, hrem0, hpk, q1a, hrem2, q7a]
            simp [List.append_assoc]
          · rw [← hh]
            show (next st2).2.outLines ++ (rr.1 ++ [(next st2).1]) =
              st.outLines ++ _
            rw [if_neg hraw, hOL2, q4a, hOL0, q2a, hfst0, hfst2]
            simp [List.append_assoc]
          · rw [← hh]
            show (next st2).2.out = st.out
            rw [hOut2, q5a, hOut0]
          · rw [← hh]
            show (next st2).2.sawFx = st.sawFx
            rw [hSaw2, q6a, hSaw0]
    · intro st st1 hWF hpk h hsf
      rw [processStringLiteral_step] at h
      unfold processStringLiteralB at h
      simp only [] at h
      by_cases hR : 0 < st.outLines.length ∧
          st.outLines.getD (st.outLines.length - 1) ' ' = 'R'
      · rw [if_pos hR] at h
        simp only [] at h
        by_cases hF : 0 < st.outLines.length - 1
        · rw [if_pos hF] at h
          try simp only [] at h
          by_cases hfc : tolowerC (st.outLines.getD
              (st.outLines.length - 1 - 1) ' ') = 'f' ∨
            tolowerC (st.outLines.getD (st.outLines.length - 1 - 1) ' ') = 'x'
          · rw [if_pos hfc] at h
            simp only [] at h
            have hc0 : tolowerC (st.outLines.getD
                (st.outLines.length - 1 - 1) ' ') ≠ '\x00' := by
              rcases hfc with hq | hq <;> rw [hq] <;> decide
            have hs1 := m7 _ _ _ _ _ _ h
              (by show (if tolowerC (st.outLines.getD
                    (st.outLines.length - 1 - 1) ' ') = '\x00' then st.sawFx
                  else true) = true
                  rw [if_neg hc0])
            rw [hsf] at hs1
            exact Bool.noConfusion hs1
          · rw [if_neg hfc] at h
            simp only [] at h
            rw [if_neg (by simp : ¬(('\x00' : Char) = 'f' ∧
              0 < st.outLines.length - 1))] at h
            try rw [if_pos (rfl : ('\x00' : Char) = '\x00')] at h
            replace h : (interp cfg n).processLiteral true '\x00' [] '"'
                { st with
                  outLines := st.outLines.take (st.outLines.length - 1),
                  sawFx := st.sawFx } = .ok st1 := h
            obtain ⟨w, d, e1, e2, e3, e4⟩ :=
              v7 true [] '"'
                ({ st with
                   outLines := st.outLines.take (st.outLines.length - 1),
                   sawFx := st.sawFx }) st1 hWF (by decide) (by decide) hpk h
            have e1a : rem st = d ++ rem st1 := e1
            have e2a : st1.outLines =
                st.outLines.take (st.outLines.length - 1) ++ ('R' :: d) := e2
            have e3a : st1.out = st.out := e3
            have e4a : st1.sawFx = st.sawFx := e4
            refine ⟨w, d, e1a, ?_, e3a, e4a⟩
            rw [e2a, ← List.singleton_append, ← List.append_assoc, ← hR.2,
              take_getD_last st.outLines hR.1]
        · rw [if_neg hF] at h
          simp only [] at h
          rw [if_neg (by simp : ¬(('\x00' : Char) = 'f' ∧
            0 < st.outLines.length - 1))] at h
          try rw [if_pos (rfl : ('\x00' : Char) = '\x00')] at h
          replace h : (interp cfg n).processLiteral true '\x00' [] '"'
              { st with
                outLines := st.outLines.take (st.outLines.length - 1),
                sawFx := st.sawFx } = .ok st1 := h
          obtain ⟨w, d, e1, e2, e3, e4⟩ :=
            v7 true [] '"'
              ({ st with
                 outLines := st.outLines.take (st.outLines.length - 1),
                 sawFx := st.sawFx }) st1 hWF (by decide) (by decide) hpk h
          have e1a : rem st = d ++ rem st1 := e1
          have e2a : st1.outLines =
              st.outLines.take (st.outLines.length - 1) ++ ('R' :: d) := e2
          have e3a : st1.out = st.out := e3
          have e4a : st1.sawFx = st.sawFx := e4
          refine ⟨w, d, e1a, ?_, e3a, e4a⟩
          rw [e2a, ← List.singleton_append, ← List.append_assoc, ← hR.2,
            take_getD_last st.outLines hR.1]
      · rw [if_neg hR] at h
        simp only [] at h
        by_cases hF : 0 < st.outLines.length
        · rw [if_pos hF] at h
          try simp only [] at h
          by_cases hfc : tolowerC (st.outLines.getD
              (st.outLines.length - 1) ' ') = 'f' ∨
            tolowerC (st.outLines.getD (st.outLines.length - 1) ' ') = 'x'
          · rw [if_pos hfc] at h
            simp only [] at h
            have hc0 : tolowerC (st.outLines.getD
                (st.outLines.length - 1) ' ') ≠ '\x00' := by
              rcases hfc with hq | hq <;> rw [hq] <;> decide
            have hs1 := m7 _ _ _ _ _ _ h
              (by show (if tolowerC (st.outLines.getD
                    (st.outLines.length - 1) ' ') = '\x00' then st.sawFx
                  else true) = true
                  rw [if_neg hc0])
            rw [hsf] at hs1
            exact Bool.noConfusion hs1
          · rw [if_neg hfc] at h
            simp only [] at h
            rw [if_neg (by simp : ¬(('\x00' : Char) = 'f' ∧
              0 < st.outLines.length))] at h
            try rw [if_pos (rfl : ('\x00' : Char) = '\x00')] at h
            replace h : (interp cfg n).processLiteral false '\x00' [] '"'
                { st with
                  outLines := st.outLines.take st.outLines.length,
                  sawFx := st.sawFx } = .ok st1 := h
            obtain ⟨w, d, e1, e2, e3, e4⟩ :=
              v7 false [] '"'
                ({ st with
                   outLines := st.outLines.take st.outLines.length,
                   sawFx := st.sawFx }) st1 hWF (by decide) (by decide) hpk h
            have e1a : rem st = d ++ rem st1 := e1
            have e2a : st1.outLines =
                st.outLines.take st.outLines.length ++ d := e2
            have e3a : st1.out = st.out := e3
            have e4a : st1.sawFx = st.sawFx := e4
            refine ⟨w, d, e1a, ?_, e3a, e4a⟩
            rw [e2a, List.take_length]
        · rw [if_neg hF] at h
          simp only [] at h
          rw [if_neg (by simp : ¬(('\x00' : Char) = 'f' ∧
            0 < st.outLines.length))] at h
          try rw [if_pos (rfl : ('\x00' : Char) = '\x00')] at h
          replace h : (interp cfg n).processLiteral false '\x00' [] '"'
              { st with
                outLines := st.outLines.take st.outLines.length,
                sawFx := st.sawFx } = .ok st1 := h
          obtain ⟨w, d, e1, e2, e3, e4⟩ :=
            v7 false [] '"'
              ({ st with
                 outLines := st.outLines.take st.outLines.length,
                 sawFx := st.sawFx }) st1 hWF (by decide) (by decide) hpk h
          have e1a : rem st = d ++ rem st1 := e1
          have e2a : st1.outLines =
              st.outLines.take st.outLines.length ++ d := e2
          have e3a : st1.out = st.out := e3
          have e4a : st1.sawFx = st.sawFx := e4
          refine ⟨w, d, e1a, ?_, e3a, e4a⟩
          rw [e2a, List.take_length]
    · intro st st1 hWF hpk h
      rw [processCharLiteral_step] at h
      unfold processCharLiteralB at h
      obtain ⟨w, d, e1, e2, e3, e4⟩ :=
        v7 false [] '\'' st st1 hWF (by decide) (by decide) hpk h
      exact ⟨w, d, e1, e2, e3, e4⟩
    · intro b1 b2 st r hWF h hsf
      rw [mainLoopInner_step] at h
      unfold mainLoopInnerB at h
      by_cases h1 : peekC st = '\n' ∨ peekC st = '\x00'
      · rw [if_pos h1] at h
        injection h with hh
        rw [← hh]
        exact ⟨hWF, [], rfl, by simp, rfl, rfl, h1⟩
      · rw [if_neg h1] at h
        have hne : peekC st ≠ '\x00' := fun hc => h1 (Or.inr hc)
        by_cases h2 : peekC st = '"'
        · rw [if_pos h2] at h
          rcases hx : (interp cfg n).processStringLiteral st with e | stx <;>
            rw [hx] at h
          · exact Except.noConfusion h
          · rcases hsx : stx.sawFx with _ | _
            · exact verb_comp_mli st stx r (v8 st stx hWF h2 hx hsx)
                (v10 _ _ _ _ (v8 st stx hWF h2 hx hsx).1 h hsf)
            · have hcontra := m17 _ _ _ _ h hsx
              rw [hsf] at hcontra
              exact Bool.noConfusion hcontra
        · rw [if_neg h2] at h
          by_cases h3 : peekC st = '\''
          · rw [if_pos h3] at h
            rcases hx : (interp cfg n).processCharLiteral st with e | stx <;>
              rw [hx] at h
            · exact Except.noConfusion h
            · exact verb_comp_mli st stx r (v9 st stx hWF h3 hx)
                (v10 _ _ _ _ (v9 st stx hWF h3 hx).1 h hsf)
          · rw [if_neg h3] at h
            by_cases h4 : peekC st = '/' ∧ peekK st 1 = '*'
            · rw [if_pos h4] at h
              rcases hx : (interp cfg n).processCComment st with e | stx <;>
                rw [hx] at h
              · exact Except.noConfusion h
              · exact verb_comp_mli st stx r (v4 st stx hWF h4.1 h4.2 hx)
                  (v10 _ _ _ _ (v4 st stx hWF h4.1 h4.2 hx).1 h hsf)
            · rw [if_neg h4] at h
              by_cases h5 : peekC st = '/' ∧ peekK st 1 = '/'
              · rw [if_pos h5] at h
                rcases hx : (interp cfg n).processCPPComment st with
                  e | stx <;> rw [hx] at h
                · exact Except.noConfusion h
                · exact verb_comp_mli st stx r (v2 st stx hWF h5.1 h5.2 hx)
                    (v10 _ _ _ _ (v2 st stx hWF h5.1 h5.2 hx).1 h hsf)
              · rw [if_neg h5] at h
                by_cases h6 : peekC st = '/' ∨ peekC st = '\\'
                · rw [if_pos h6] at h
                  exact verb_comp_mli st (xfer st) r (verb_xfer st hWF hne)
                    (v10 _ _ _ _ (verb_xfer st hWF hne).1 h hsf)
                · rw [if_neg h6] at h
                  by_cases h7 : peekC st = '#'
                  · rw [if_pos h7] at h
                    simp only [] at h
                    by_cases hb2 : b2 = true
                    · rw [if_pos hb2] at h
                      have hx1 : WF (xfer { st with lineDirectives := false }) ∧
                          ∃ d, rem st =
                            d ++ rem (xfer { st with lineDirectives := false }) ∧
                          (xfer { st with
                            lineDirectives := false }).outLines =
                            st.outLines ++ d ∧
                          (xfer { st with lineDirectives := false }).out =
                            st.out ∧
                          (xfer { st with lineDirectives := false }).sawFx =
                            st.sawFx :=
                        verb_xfer { st with lineDirectives := false } hWF hne
                      exact verb_comp_mli st _ r hx1 (v10 _ _ _ _ hx1.1 h hsf)
                    · rw [if_neg hb2] at h
                      exact verb_comp_mli st (xfer st) r (verb_xfer st hWF hne)
                        (v10 _ _ _ _ (verb_xfer st hWF hne).1 h hsf)
                  · rw [if_neg h7] at h
                    by_cases h8 : isspaceC (peekC st) = false
                    · rw [if_pos h8] at h
                      exact verb_comp_mli st (xfer st) r (verb_xfer st hWF hne)
                        (v10 _ _ _ _ (verb_xfer st hWF hne).1 h hsf)
                    · rw [if_neg h8] at h
                      exact verb_comp_mli st (xfer st) r (verb_xfer st hWF hne)
                        (v10 _ _ _ _ (verb_xfer st hWF hne).1 h hsf)
    · intro sv st st1 hWF h hsf
      rw [mainLoop_step] at h
      unfold mainLoopB at h
      by_cases h1 : peekC st = '\x00'
      · rw [if_pos h1] at h
        injection h with hh
        rw [← hh]
        have hcur : st.cur = [] := (peekC_nul st hWF).mp h1
        have heof : st.eof = true := by
          rcases he : st.eof with _ | _
          · have := hWF.2.2.2.2 he
            rw [hcur] at this
            simp at this
          · rfl
        have hrest : st.rest = [] := (hWF.2.2.2.1 heof).1
        refine ⟨hWF, ?_, rfl, Or.inl rfl⟩
        rw [rem, hcur, hrest]
        simp
      · rw [if_neg h1] at h
        rcases hx : (interp cfg n).mainLoopInner false true st with e | r <;>
          rw [hx] at h
        · exact Except.noConfusion h
        · simp only [] at h
          rcases hsx : r.2.2.sawFx with _ | _
          · obtain ⟨w0, d, a1, a2, a3, a4, a5⟩ := v10 _ _ _ _ hWF hx hsx
            by_cases heof : r.2.2.eof = false
            · rw [if_pos heof] at h
              have hpk : peekC r.2.2 = '\n' := by
                rcases a5 with hp | hp
                · exact hp
                · exfalso
                  have hcur : r.2.2.cur = [] := (peekC_nul r.2.2 w0).mp hp
                  have hl := w0.2.2.2.2 heof
                  rw [hcur] at hl
                  simp at hl
              have hW2 : WF { r.2.2 with
                  out := r.2.2.out ++ r.2.2.outLines } := w0
              have hne2 : peekC { r.2.2 with
                  out := r.2.2.out ++ r.2.2.outLines } ≠ '\x00' := by
                show peekC r.2.2 ≠ '\x00'
                rw [hpk]; decide
              obtain ⟨hrem2, hWF3, hOL3, hOut3, hSaw3, _⟩ :=
                next_verb _ hW2 hne2
              have hfst2 : (next { r.2.2 with
                  out := r.2.2.out ++ r.2.2.outLines }).1 = '\n' := by
                rw [next_fst_of_ne]
                · exact hpk
                · intro hc
                  have hc2 : r.2.2.cur = [] := hc
                  exact hne2 (by simp [peekC, hc2])
              have hrem2a : rem r.2.2 = '\n' :: rem (next { r.2.2 with
                  out := r.2.2.out ++ r.2.2.outLines }).2 := by
                have hr : rem r.2.2 = peekC r.2.2 :: rem (next { r.2.2 with
                    out := r.2.2.out ++ r.2.2.outLines }).2 := hrem2
                rw [hr, hpk]
              have hOut3a : (next { r.2.2 with
                  out := r.2.2.out ++ r.2.2.outLines }).2.out =
                  r.2.2.out ++ r.2.2.outLines := hOut3
              have hSaw3a : (next { r.2.2 with
                  out := r.2.2.out ++ r.2.2.outLines }).2.sawFx =
                  r.2.2.sawFx := hSaw3
              by_cases hcont : r.1 = false
              · rw [if_pos hcont] at h
                obtain ⟨w1, e1, e2, e3⟩ := v11 _ _ _ (by exact hWF3) h hsf
                refine ⟨w1, ?_, ?_, ?_⟩
                · have e1a : st1.out ++ st1.outLines =
                      ((next { r.2.2 with
                        out := r.2.2.out ++ r.2.2.outLines }).2.out ++
                        [(next { r.2.2 with
                          out := r.2.2.out ++ r.2.2.outLines }).1]) ++
                      [] ++ rem (next { r.2.2 with
                        out := r.2.2.out ++ r.2.2.outLines }).2 := e1
                  rw [e1a, hfst2, hOut3a, a1, hrem2a, a3, a2]
                  simp [List.append_assoc]
                · have e2a : st1.sawFx = (next { r.2.2 with
                      out := r.2.2.out ++ r.2.2.outLines }).2.sawFx := e2
                  rw [e2a, hSaw3a, a4]
                · right
                  rcases e3 with he3 | he3
                  · rw [he3]
                  · exact he3
              · rw [if_neg hcont] at h
                obtain ⟨w1, e1, e2, e3⟩ := v11 _ _ _ (by exact hWF3) h hsf
                refine ⟨w1, ?_, ?_, ?_⟩
                · have e1a : st1.out ++ st1.outLines =
                      ((next { r.2.2 with
                        out := r.2.2.out ++ r.2.2.outLines }).2.out ++
                        [(next { r.2.2 with
                          out := r.2.2.out ++ r.2.2.outLines }).1]) ++
                      [] ++ rem (next { r.2.2 with
                        out := r.2.2.out ++ r.2.2.outLines }).2 := e1
                  rw [e1a, hfst2, hOut3a, a1, hrem2a, a3, a2]
                  simp [List.append_assoc]
                · have e2a : st1.sawFx = (next { r.2.2 with
                      out := r.2.2.out ++ r.2.2.outLines }).2.sawFx := e2
                  rw [e2a, hSaw3a, a4]
                · right
                  rcases e3 with he3 | he3
                  · rw [he3]
                  · exact he3
            · rw [if_neg heof] at h
              have heoft : r.2.2.eof = true := by
                rcases he : r.2.2.eof with _ | _
                · exact absurd he heof
                · rfl
              have hpk : peekC r.2.2 = '\x00' := by
                rcases a5 with hp | hp
                · exfalso
                  apply (w0.2.2.2.1 heoft).2
                  rcases hc : r.2.2.cur with _ | ⟨c, cs⟩
                  · simp [peekC, hc] at hp
                  · have hcn : c = '\n' := by simpa [peekC, hc] using hp
                    rw [hcn]
                    exact List.mem_cons_self _ _
                · exact hp
              have hcur : r.2.2.cur = [] := (peekC_nul r.2.2 w0).mp hpk
              have hrest : r.2.2.rest = [] := (w0.2.2.2.1 heoft).1
              by_cases hcont : r.1 = false
              · rw [if_pos hcont] at h
                obtain ⟨w1, e1, e2, e3⟩ := v11 _ _ _ (by exact w0) h hsf
                refine ⟨w1, ?_, ?_, ?_⟩
                · have e1a : st1.out ++ st1.outLines =
                      (r.2.2.out ++ r.2.2.outLines) ++ [] ++
                        (r.2.2.cur ++ r.2.2.rest) := e1
                  rw [e1a, hcur, hrest, a3, a2, a1]
                  simp [rem, hcur, hrest, List.append_assoc]
                · have e2a : st1.sawFx = r.2.2.sawFx := e2
                  rw [e2a, a4]
                · right
                  rcases e3 with he3 | he3
                  · rw [he3]
                  · exact he3
              · rw [if_neg hcont] at h
                obtain ⟨w1, e1, e2, e3⟩ := v11 _ _ _ (by exact w0) h hsf
                refine ⟨w1, ?_, ?_, ?_⟩
                · have e1a : st1.out ++ st1.outLines =
                      (r.2.2.out ++ r.2.2.outLines) ++ [] ++
                        (r.2.2.cur ++ r.2.2.rest) := e1
                  rw [e1a, hcur, hrest, a3, a2, a1]
                  simp [rem, hcur, hrest, List.append_assoc]
                · have e2a : st1.sawFx = r.2.2.sawFx := e2
                  rw [e2a, a4]
                · right
                  rcases e3 with he3 | he3
                  · rw [he3]
                  · exact he3
          · have hst5 : st1.sawFx = true := by
              apply m18 _ _ _ h
              split_ifs <;> simp [hsx]
            rw [hsf] at hst5
            exact Bool.noConfusion hst5

/-- C1 (amended): for every NUL-free input, a successful run of `process`
with line directives off that recognized no f/F/x/X literal writes out the
input byte sequence exactly. -/
theorem passthrough_of_success (cfg : Config) (fuel : Nat)
    (input : List Char) (st1 : St) (h0 : '\x00' ∉ input)
    (h : tryProcess cfg fuel false input = .ok st1)
    (hs : st1.sawFx = false) : st1.out = input := by
  unfold tryProcess at h
  simp only [] at h
  rw [show makeLineDirective cfg (initSt false input).lineDirectives 1 0 =
    .ok [] from rfl] at h
  simp only [] at h
  obtain ⟨_, _, _, _, _, _, _, _, _, _, v11⟩ := verbAll cfg fuel
  obtain ⟨w1, e1, e2, e3⟩ :=
    v11 false _ st1 (by exact WF_initSt false input h0) h hs
  have e1a : st1.out ++ st1.outLines =
      [] ++ [] ++ rem (initSt false input) := e1
  rw [rem_initSt] at e1a
  have hol : st1.outLines = [] := by
    rcases e3 with he | he
    · rw [he]; rfl
    · exact he
  rw [hol, List.append_nil] at e1a
  simpa using e1a

/-- Concrete instance of `passthrough_of_success`: the NUL-free literal-free
input `ab` passes through unchanged. -/
theorem passthrough_of_success_witness :
    ('\x00' ∉ ("ab\n").toList) ∧
      ({ cur := [], rest := [], eof := true, lineNo := 2, linePos := 0,
         outLines := [], out := ['a', 'b', '\n'], lineDirectives := false,
         sawFx := false } : St).out = ("ab\n").toList :=
  ⟨by decide,
   passthrough_of_success cfgT 30 (("ab\n").toList)
     { cur := [], rest := [], eof := true, lineNo := 2, linePos := 0,
       outLines := [], out := ['a', 'b', '\n'], lineDirectives := false,
       sawFx := false } (by decide) (by decide) (by decide)⟩

end ExtractFx
